import Mathlib

/-
Verification of the metadata codec (Marshal/Unmarshal between a tagged
record and the labels/annotations dictionaries of a Kubernetes ObjectMeta).

The embedding models:
  * the Go standard-library routines the codec calls
    (strconv.ParseInt / ParseUint / ParseBool, strings.Split / Join,
    time.ParseDuration, time.Duration.String, and fmt.Sprint's default
    formatting for the value kinds that occur), and
  * the codec itself: Marshal, Unmarshal, parseValue, handleSlice and the
    element-list parsers, over an explicit record model.

Records are lists of fields; a field carries its two possible struct tags
and a typed value.  The float32/float64/complex64/complex128 kinds are not
modelled (their encode side is IEEE-754 shortest-round-trip formatting,
which is outside this embedding); every other kind the code supports is
modelled, together with one unsupported scalar kind (a nested struct) and
one unsupported slice element kind ([]int8), which the code treats through
its default switch branches.
-/

namespace Meta2P

/-! ### Characters and decimal digits -/

/-- The character for a decimal digit value (Go writes `byte(d) + '0'`). -/
def digitChar (d : Nat) : Char := Char.ofNat (48 + d)

/-- Byte-level digit test, as Go writes `'0' <= c && c <= '9'`. -/
def goIsDigit (c : Char) : Bool := decide (48 ≤ c.toNat) && decide (c.toNat ≤ 57)

/-- Value of a digit character (Go's `c - '0'`). -/
def charVal (c : Char) : Nat := c.toNat - 48

/-- Base-10 value of a digit string, most significant digit first. -/
def digitsVal (l : List Char) : Nat := l.foldl (fun a c => a * 10 + charVal c) 0

/-- Fuel-indexed digit printer: the digit characters of `n`, most
significant first, empty for `n = 0` (the inner loop of Go's `fmtInt` and
of `strconv.FormatUint`). -/
def natDigitsF : Nat → Nat → List Char
  | 0, _ => []
  | fuel + 1, n => if n = 0 then [] else natDigitsF fuel (n / 10) ++ [digitChar (n % 10)]

/-- Digit characters of `n` with `n = 0` printed as "0": Go's `fmtInt` /
`strconv.FormatUint` for base 10. -/
def natDigits (n : Nat) : List Char := if n = 0 then ['0'] else natDigitsF (n + 1) n

/-- Decimal rendering of an unsigned integer (fmt.Sprint of a uint). -/
def natStr (n : Nat) : String := ⟨natDigits n⟩

/-- Decimal rendering of a signed integer (fmt.Sprint of an int). -/
def intStr (n : Int) : String := ⟨(if n < 0 then ['-'] else []) ++ natDigits n.natAbs⟩

/-! ### strconv.ParseUint / ParseInt / ParseBool (base 10)

Go's ParseUint accumulates into a uint64 and reports a range error as soon
as the accumulator would pass the cutoff for the requested bit size; since
the callers in metadata.go only distinguish `err == nil` from `err != nil`,
the in-loop cutoff checks are extensionally the final bound test performed
below on the unbounded value, and are modelled that way. -/

/-- Go's ParseUint digit loop (base 10): `none` on the first non-digit. -/
def readDigitsGo : Nat → List Char → Option Nat
  | n, [] => some n
  | n, c :: cs => if goIsDigit c then readDigitsGo (n * 10 + charVal c) cs else none

/-- Digits of a non-empty string, or `none` (ParseUint's syntax errors). -/
def readDigits? (cs : List Char) : Option Nat :=
  if cs = [] then none else readDigitsGo 0 cs

/-- strconv.ParseUint(s, 10, bits), with any error collapsed to `none`. -/
def goParseUint (s : String) (bits : Nat) : Option Nat :=
  (readDigits? s.data).bind fun n => if n ≤ 2 ^ bits - 1 then some n else none

/-- Sign handling of strconv.ParseInt: strips one leading '+' or '-'. -/
def stripSignInt : List Char → Bool × List Char
  | [] => (false, [])
  | c :: cs =>
    if c = '+' then (false, cs)
    else if c = '-' then (true, cs)
    else (false, c :: cs)

/-- strconv.ParseInt(s, 10, bits), with any error collapsed to `none`.
ParseInt parses the magnitude via ParseUint and applies the signed cutoff
`1 << (bits-1)`; a ParseUint range error leaves the magnitude at maxUint64,
which also fails the signed cutoff, so collapsing errors is exact. -/
def goParseInt (s : String) (bits : Nat) : Option Int :=
  match s.data with
  | [] => none
  | c :: cs =>
    let p := stripSignInt (c :: cs)
    match readDigits? p.2 with
    | none => none
    | some un =>
      if p.1 then
        if un > 2 ^ (bits - 1) then none else some (-(un : Int))
      else
        if un ≥ 2 ^ (bits - 1) then none else some (un : Int)

/-- strconv.ParseBool: the fixed sets of accepted literals. -/
def goParseBool (s : String) : Option Bool :=
  if s = "1" ∨ s = "t" ∨ s = "T" ∨ s = "true" ∨ s = "TRUE" ∨ s = "True" then some true
  else if s = "0" ∨ s = "f" ∨ s = "F" ∨ s = "false" ∨ s = "FALSE" ∨ s = "False" then some false
  else none

/-! ### strings.Split and strings.Join for the "," separator

The codec always passes "," (handleSlice normalizes an empty separator to
"," and both call sites pass ","), so the split is modelled for that
one-character separator. -/

/-- strings.Split(s, ",") at the character level; Split("") is [""]. -/
def splitCommaCh : List Char → List (List Char)
  | [] => [[]]
  | c :: cs =>
    if c = ',' then [] :: splitCommaCh cs
    else
      match splitCommaCh cs with
      | [] => [[c]]
      | t :: ts => (c :: t) :: ts

/-- strings.Split(s, ","). -/
def splitComma (s : String) : List String := (splitCommaCh s.data).map fun l => ⟨l⟩

/-- strings.Join(l, ","). -/
def joinComma : List String → String
  | [] => ""
  | [s] => s
  | s :: rest => s ++ "," ++ joinComma rest

/-! ### time.Duration.String

A duration is a signed 64-bit count of nanoseconds.  Its rendering follows
Go's `Duration.String`: sub-second values use "ns"/"µs"/"ms" with a
stripped fraction, larger values use "h"/"m"/"s". -/

/-- Go's `fmtFrac`: peel `prec` low decimal digits of `v` off as a
fraction, omitting trailing zeros (and the '.' when all are zero).
Returns the fraction characters and `v` with those digits removed. -/
def fmtFracGo : Nat → Nat → Bool → List Char → List Char × Nat
  | 0, v, pr, acc => (if pr then '.' :: acc else acc, v)
  | i + 1, v, pr, acc =>
    let d := v % 10
    let pr2 := pr || decide (d ≠ 0)
    fmtFracGo i (v / 10) pr2 (if pr2 then digitChar d :: acc else acc)

/-- `Duration.String` on the magnitude `u` (in nanoseconds). -/
def durStringAux (u : Nat) : List Char :=
  if u < 1000000000 then
    if u = 0 then ['0', 's']
    else if u < 1000 then natDigits u ++ ['n', 's']
    else if u < 1000000 then
      let p := fmtFracGo 3 u false []
      natDigits p.2 ++ p.1 ++ ['µ', 's']
    else
      let p := fmtFracGo 6 u false []
      natDigits p.2 ++ p.1 ++ ['m', 's']
  else
    let p := fmtFracGo 9 u false []
    let sec := p.2
    let sPart := natDigits (sec % 60) ++ p.1 ++ ['s']
    let min := sec / 60
    if min = 0 then sPart
    else
      let mPart := natDigits (min % 60) ++ ['m'] ++ sPart
      let hr := min / 60
      if hr = 0 then mPart else natDigits hr ++ ['h'] ++ mPart

/-- `time.Duration.String`, fmt.Sprint's rendering of a duration value. -/
def durString (d : Int) : String :=
  ⟨(if d < 0 then ['-'] else []) ++ durStringAux d.natAbs⟩

/-! ### time.ParseDuration -/

/-- Go's `leadingInt`: consume leading digits into a value bounded by
`1 << 63`, `none` on overflow. -/
def leadingIntGo : Nat → List Char → Option (Nat × List Char)
  | x, [] => some (x, [])
  | x, c :: cs =>
    if goIsDigit c then
      if x > 2 ^ 63 / 10 then none
      else
        let y := x * 10 + charVal c
        if y > 2 ^ 63 then none else leadingIntGo y cs
    else some (x, c :: cs)

/-- Go's `leadingFraction`: consume digits after the decimal point,
accumulating value and scale, silently dropping digits once the value
would overflow.  The scale (a float64 power of ten in Go, exact there up
to 10^22) is kept as a natural number. -/
def leadingFracGo : Nat → Nat → Bool → List Char → Nat × Nat × List Char
  | x, scale, _, [] => (x, scale, [])
  | x, scale, ovfl, c :: cs =>
    if goIsDigit c then
      if ovfl then leadingFracGo x scale ovfl cs
      else if x > (2 ^ 63 - 1) / 10 then leadingFracGo x scale true cs
      else
        let y := x * 10 + charVal c
        if y > 2 ^ 63 then leadingFracGo x scale true cs
        else leadingFracGo y (scale * 10) ovfl cs
    else (x, scale, c :: cs)

/-- Go's `unitMap`: nanoseconds per unit suffix. -/
def unitVal? (u : List Char) : Option Nat :=
  if u = ['n', 's'] then some 1
  else if u = ['u', 's'] then some 1000
  else if u = ['µ', 's'] then some 1000
  else if u = ['μ', 's'] then some 1000
  else if u = ['m', 's'] then some 1000000
  else if u = ['s'] then some 1000000000
  else if u = ['m'] then some 60000000000
  else if u = ['h'] then some 3600000000000
  else none

/-- A character that can be part of a unit suffix: ParseDuration's unit
scan stops at a digit or a '.' (Go checks `c == '.' || '0' <= c && c <= '9'`
to break). -/
def isUnitChar (ch : Char) : Bool := !(decide (ch = '.') || goIsDigit ch)

/-- One iteration of ParseDuration's component loop: reads
`[0-9]*(\.[0-9]*)?unit` and yields its value in nanoseconds and the rest
of the input.  The fractional contribution, which Go computes as
`uint64(float64(f) * (float64(unit)/scale))`, is modelled as
`f * unit / scale`; on every input this development evaluates the parse on
(at most `prec ≤ 9` fraction digits against a unit of at least `10^prec`
nanoseconds) the scale divides the unit and the float64 computation is
exact and equal to this integer form. -/
def parseDurIter (cs : List Char) : Option (Nat × List Char) :=
  match cs with
  | [] => none
  | c :: _ =>
    if isUnitChar c then none
    else
      match leadingIntGo 0 cs with
      | none => none
      | some (v, s1) =>
        let pre : Bool := decide (s1.length ≠ cs.length)
        let fr :=
          if s1.head? = some '.' then
            let r := leadingFracGo 0 1 false s1.tail
            (r.1, r.2.1, r.2.2, decide (r.2.2.length ≠ s1.tail.length))
          else (0, 1, s1, false)
        let f := fr.1
        let scale := fr.2.1
        let s2 := fr.2.2.1
        let post := fr.2.2.2
        if pre = false ∧ post = false then none
        else
          let u := s2.takeWhile isUnitChar
          if u = [] then none
          else
            match unitVal? u with
            | none => none
            | some unit =>
              if v > 2 ^ 63 / unit then none
              else
                let v1 := v * unit
                let v2 := if f > 0 then v1 + f * unit / scale else v1
                if f > 0 ∧ v2 > 2 ^ 63 then none
                else some (v2, s2.drop u.length)

/-- ParseDuration's component loop, with fuel (each iteration consumes at
least the unit character, so `length + 1` fuel always suffices). -/
def parseDurLoop : Nat → Nat → List Char → Option Nat
  | _, d, [] => some d
  | 0, _, _ => none
  | fuel + 1, d, cs =>
    match parseDurIter cs with
    | none => none
    | some (v, rest) =>
      let d1 := d + v
      if d1 > 2 ^ 63 then none else parseDurLoop fuel d1 rest

/-- Sign handling of ParseDuration. -/
def stripSignDur : List Char → Bool × List Char
  | [] => (false, [])
  | c :: cs =>
    if c = '-' then (true, cs)
    else if c = '+' then (false, cs)
    else (false, c :: cs)

/-- time.ParseDuration, with any error collapsed to `none`. -/
def parseDuration (s : String) : Option Int :=
  let p := stripSignDur s.data
  if p.2 = ['0'] then some 0
  else if p.2 = [] then none
  else
    match parseDurLoop (p.2.length + 1) 0 p.2 with
    | none => none
    | some d =>
      if p.1 then some (-(d : Int))
      else if d > 2 ^ 63 - 1 then none
      else some (d : Int)

/-! ### The codec's data model

A `Value` is one constructor per field kind the code handles, carrying the
field's current contents.  The constructor plays the role of the field's
static type (`reflect.Kind` plus the `time.Duration` type-name check), so
decode preserves it.  `structVal` stands for a field of an unsupported
non-slice kind (e.g. a nested struct); its payload is the string
fmt.Sprint would render for it.  `i8s` stands for a slice with an
unsupported element kind ([]int8). -/

inductive Value where
  | str (s : String)
  | bool (b : Bool)
  | i8 (n : Int)
  | i16 (n : Int)
  | i32 (n : Int)
  | int (n : Int)
  | i64 (n : Int)
  | dur (n : Int)
  | u8 (n : Nat)
  | u16 (n : Nat)
  | u32 (n : Nat)
  | uint (n : Nat)
  | u64 (n : Nat)
  | strs (l : List String)
  | bools (l : List Bool)
  | ints (l : List Int)
  | uints (l : List Nat)
  | i64s (l : List Int)
  | u64s (l : List Nat)
  | durs (l : List Int)
  | structVal (rendered : String)
  | i8s (l : List Int)
deriving DecidableEq, Repr

/-- The codec's sentinel errors. -/
inductive Err where
  | unsupportedType
  | conversion
  | notStructPointer
  | valueMissing
deriving DecidableEq, Repr

instance : DecidableEq (Except Err Value) := fun a b =>
  match a, b with
  | .error e1, .error e2 =>
    if h : e1 = e2 then isTrue (by rw [h]) else isFalse fun hc => h (Except.error.inj hc)
  | .error _, .ok _ => isFalse fun hc => Except.noConfusion hc
  | .ok _, .error _ => isFalse fun hc => Except.noConfusion hc
  | .ok v1, .ok v2 =>
    if h : v1 = v2 then isTrue (by rw [h]) else isFalse fun hc => h (Except.ok.inj hc)

/-- One record field: its `annotation` tag, its `label` tag, its value. -/
structure Field where
  annTag : Option String
  lblTag : Option String
  value : Value
deriving DecidableEq, Repr

/-- The two dictionaries of an ObjectMeta, as total lookup functions. -/
structure MetaDicts where
  lbls : String → Option String
  anns : String → Option String

/-- Pointwise map update: `m[k] = v`. -/
def mapSet (m : String → Option String) (k v : String) : String → Option String :=
  fun x => if x = k then some v else m x

/-- Tag resolution of both Marshal and Unmarshal: annotation first, label
as fallback, `none` means the field is skipped.  The Bool is `true` for
the annotations dictionary. -/
def fieldTag (f : Field) : Option (Bool × String) :=
  match f.annTag with
  | some t => some (true, t)
  | none =>
    match f.lblTag with
    | some t => some (false, t)
    | none => none

/-- Key construction: `fmt.Sprintf("%s/%s", prefix, tag)`. -/
def mkKey (pfx tag : String) : String := pfx ++ "/" ++ tag

/-! ### Encoding (Marshal) -/

/-- fmt.Sprint of a non-slice field value (fmt resolves the reflect.Value
to its concrete value, so a time.Duration prints via its String method). -/
def sprintScalar : Value → String
  | .str s => s
  | .bool b => if b then "true" else "false"
  | .i8 n | .i16 n | .i32 n | .int n | .i64 n => intStr n
  | .dur n => durString n
  | .u8 n | .u16 n | .u32 n | .uint n | .u64 n => natStr n
  | .structVal r => r
  | _ => ""

/-- fmt.Sprint of each element of a slice field. -/
def elemStrs : Value → List String
  | .strs l => l
  | .bools l => l.map fun b => if b then "true" else "false"
  | .ints l => l.map intStr
  | .uints l => l.map natStr
  | .i64s l => l.map intStr
  | .u64s l => l.map natStr
  | .durs l => l.map durString
  | .i8s l => l.map intStr
  | _ => []

/-- Whether the field's kind is reflect.Slice. -/
def isSlice : Value → Bool
  | .strs _ | .bools _ | .ints _ | .uints _ | .i64s _ | .u64s _ | .durs _ | .i8s _ => true
  | _ => false

/-- Marshal's per-field formatting: slices print each element and join
with ","; everything else is fmt.Sprint of the value. -/
def encodeValue (v : Value) : String :=
  if isSlice v then joinComma (elemStrs v) else sprintScalar v

/-- Marshal's body for one field: write the formatted value into the
selected dictionary under the key, or skip an untagged field. -/
def marshalField (md : MetaDicts) (pfx : String) (f : Field) : MetaDicts :=
  match fieldTag f with
  | none => md
  | some (isAnn, t) =>
    let k := mkKey pfx t
    if isAnn then { md with anns := mapSet md.anns k (encodeValue f.value) }
    else { md with lbls := mapSet md.lbls k (encodeValue f.value) }

/-- Marshal: fold over the fields in declaration order.  (Go's function
also rejects a non-struct-pointer argument and replaces nil maps by empty
ones; the record model always passes a struct and the lookup-function
dictionaries have no nil state, so neither path is observable here.) -/
def marshal (md : MetaDicts) (pfx : String) : List Field → MetaDicts
  | [] => md
  | f :: fs => marshal (marshalField md pfx f) pfx fs

/-! ### Decoding (Unmarshal) -/

/-- The shared shape of parseBools/parseInts/parseUints/parseInt64s/
parseUint64s/parseFloat32s/parseFloat64s/parseDurations: convert every
token, aborting at the first failure (so no partial list survives). -/
def parseAll {α : Type} (p : String → Option α) : List String → Option (List α)
  | [] => some []
  | s :: rest =>
    match p s with
    | none => none
    | some v => (parseAll p rest).map fun l => v :: l

/-- handleSlice: split on the separator and dispatch on the slice's
element type; unsupported element kinds hit the default branch.  The
separator is always "," here (both call sites pass ",", and the function
normalizes an empty separator to ","). -/
def handleSlice (v : Value) (value : String) : Except Err Value :=
  let toks := splitComma value
  match v with
  | .strs _ => .ok (.strs toks)
  | .bools _ =>
    match parseAll goParseBool toks with
    | some l => .ok (.bools l)
    | none => .error .conversion
  | .ints _ =>
    match parseAll (fun s => goParseInt s 32) toks with
    | some l => .ok (.ints l)
    | none => .error .conversion
  | .uints _ =>
    match parseAll (fun s => goParseUint s 32) toks with
    | some l => .ok (.uints l)
    | none => .error .conversion
  | .i64s _ =>
    match parseAll (fun s => goParseInt s 64) toks with
    | some l => .ok (.i64s l)
    | none => .error .conversion
  | .u64s _ =>
    match parseAll (fun s => goParseUint s 64) toks with
    | some l => .ok (.u64s l)
    | none => .error .conversion
  | .durs _ =>
    match parseAll parseDuration toks with
    | some l => .ok (.durs l)
    | none => .error .conversion
  | _ => .error .unsupportedType

/-- parseValue: the per-kind switch.  Int-family kinds use ParseInt with
their bit width (Int falls through to Int32); the Int64 case is special-
cased on the `time.Duration` type name; slices go to handleSlice with any
error from it rewrapped as ErrConversion; the default branch is
ErrUnsupportedType. -/
def parseValue (v : Value) (s : String) : Except Err Value :=
  match v with
  | .str _ => .ok (.str s)
  | .bool _ =>
    match goParseBool s with
    | some b => .ok (.bool b)
    | none => .error .conversion
  | .i8 _ =>
    match goParseInt s 8 with
    | some n => .ok (.i8 n)
    | none => .error .conversion
  | .i16 _ =>
    match goParseInt s 16 with
    | some n => .ok (.i16 n)
    | none => .error .conversion
  | .i32 _ =>
    match goParseInt s 32 with
    | some n => .ok (.i32 n)
    | none => .error .conversion
  | .int _ =>
    match goParseInt s 32 with
    | some n => .ok (.int n)
    | none => .error .conversion
  | .dur _ =>
    match parseDuration s with
    | some d => .ok (.dur d)
    | none => .error .conversion
  | .i64 _ =>
    match goParseInt s 64 with
    | some n => .ok (.i64 n)
    | none => .error .conversion
  | .u8 _ =>
    match goParseUint s 8 with
    | some n => .ok (.u8 n)
    | none => .error .conversion
  | .u16 _ =>
    match goParseUint s 16 with
    | some n => .ok (.u16 n)
    | none => .error .conversion
  | .u32 _ =>
    match goParseUint s 32 with
    | some n => .ok (.u32 n)
    | none => .error .conversion
  | .uint _ =>
    match goParseUint s 32 with
    | some n => .ok (.uint n)
    | none => .error .conversion
  | .u64 _ =>
    match goParseUint s 64 with
    | some n => .ok (.u64 n)
    | none => .error .conversion
  | .strs _ | .bools _ | .ints _ | .uints _ | .i64s _ | .u64s _ | .durs _ | .i8s _ =>
    match handleSlice v s with
    | .ok v2 => .ok v2
    | .error _ => .error .conversion
  | .structVal _ => .error .unsupportedType

/-- Unmarshal: walk the fields in order; skip untagged fields; look the
key up in the selected dictionary, aborting with ErrValueMissing when
absent; parse the value, aborting with the parse error; on abort the
current and the remaining fields keep their old values. -/
def unmarshal (md : MetaDicts) (pfx : String) : List Field → List Field × Option Err
  | [] => ([], none)
  | f :: fs =>
    match fieldTag f with
    | none =>
      let r := unmarshal md pfx fs
      (f :: r.1, r.2)
    | some (isAnn, t) =>
      let dict := if isAnn then md.anns else md.lbls
      match dict (mkKey pfx t) with
      | none => (f :: fs, some .valueMissing)
      | some v =>
        match parseValue f.value v with
        | .error e => (f :: fs, some e)
        | .ok v2 =>
          let r := unmarshal md pfx fs
          ({ f with value := v2 } :: r.1, r.2)

/-! ### Side conditions used by the round-trip statement -/

/-- Values representable in the field's machine type (the invariant every
Go record satisfies by construction), with the unsupported kinds excluded.
Go's `int` and `uint` are 64-bit on the usual platforms but are parsed
with 32-bit bounds, so the round trip additionally needs their values
within 32 bits; that bound is part of the amended claim, not of this
machine-range predicate. -/
def wfValue : Value → Bool
  | .str _ => true
  | .bool _ => true
  | .i8 n => decide (-(2 ^ 7) ≤ n ∧ n < 2 ^ 7)
  | .i16 n => decide (-(2 ^ 15) ≤ n ∧ n < 2 ^ 15)
  | .i32 n => decide (-(2 ^ 31) ≤ n ∧ n < 2 ^ 31)
  | .int n => decide (-(2 ^ 31) ≤ n ∧ n < 2 ^ 31)
  | .i64 n => decide (-(2 ^ 63) ≤ n ∧ n < 2 ^ 63)
  | .dur n => decide (-(2 ^ 63) ≤ n ∧ n < 2 ^ 63)
  | .u8 n => decide (n < 2 ^ 8)
  | .u16 n => decide (n < 2 ^ 16)
  | .u32 n => decide (n < 2 ^ 32)
  | .uint n => decide (n < 2 ^ 32)
  | .u64 n => decide (n < 2 ^ 64)
  | .strs _ => true
  | .bools _ => true
  | .ints l => l.all fun n => decide (-(2 ^ 31) ≤ n ∧ n < 2 ^ 31)
  | .uints l => l.all fun n => decide (n < 2 ^ 32)
  | .i64s l => l.all fun n => decide (-(2 ^ 63) ≤ n ∧ n < 2 ^ 63)
  | .u64s l => l.all fun n => decide (n < 2 ^ 64)
  | .durs l => l.all fun n => decide (-(2 ^ 63) ≤ n ∧ n < 2 ^ 63)
  | .structVal _ => false
  | .i8s _ => false

/-- Sequence-shape side conditions of the amended round trip: slices must
be non-empty (Join of the empty slice is "", which splits back to [""]),
and string elements must not contain the separator. -/
def seqOk : Value → Bool
  | .strs l => decide (l ≠ []) && l.all fun s => decide (',' ∉ s.data)
  | .bools l => decide (l ≠ [])
  | .ints l => decide (l ≠ [])
  | .uints l => decide (l ≠ [])
  | .i64s l => decide (l ≠ [])
  | .u64s l => decide (l ≠ [])
  | .durs l => decide (l ≠ [])
  | _ => true

/-- The keys of the annotation-bound fields of a record. -/
def annKeys (pfx : String) (r : List Field) : List String :=
  r.filterMap fun f =>
    match fieldTag f with
    | some (true, t) => some (mkKey pfx t)
    | _ => none

/-- The keys of the label-bound fields of a record. -/
def lblKeys (pfx : String) (r : List Field) : List String :=
  r.filterMap fun f =>
    match fieldTag f with
    | some (false, t) => some (mkKey pfx t)
    | _ => none

/-- The supported slice kinds of handleSlice. -/
def supportedSlice : Value → Bool
  | .strs _ | .bools _ | .ints _ | .uints _ | .i64s _ | .u64s _ | .durs _ => true
  | _ => false

/-- Whether one token fails element conversion for the given slice kind. -/
def elemFailB (v : Value) (tok : String) : Bool :=
  match v with
  | .strs _ => false
  | .bools _ => (goParseBool tok).isNone
  | .ints _ => (goParseInt tok 32).isNone
  | .uints _ => (goParseUint tok 32).isNone
  | .i64s _ => (goParseInt tok 64).isNone
  | .u64s _ => (goParseUint tok 64).isNone
  | .durs _ => (parseDuration tok).isNone
  | _ => false

/-- A string denotes the integer n: an optional sign followed by at least
one decimal digit, read in base 10.  (The reference reading relation used
to state the range-check claim.) -/
def denotesInt (s : String) (n : Int) : Prop :=
  ∃ sgn mag, s.data = sgn ++ mag ∧ mag ≠ [] ∧ (∀ c ∈ mag, goIsDigit c = true) ∧
    ((sgn = [] ∧ n = (digitsVal mag : Int)) ∨
     (sgn = ['+'] ∧ n = (digitsVal mag : Int)) ∨
     (sgn = ['-'] ∧ n = -(digitsVal mag : Int)))

/-- An empty pair of dictionaries. -/
def emptyMeta : MetaDicts := ⟨fun _ => none, fun _ => none⟩

/-- `digitsVal` with an explicit accumulator (proof view of the parsing
folds). -/
def digitsValFrom (a : Nat) (l : List Char) : Nat :=
  l.foldl (fun a c => a * 10 + charVal c) a

/-- Character-level view of `joinComma`. -/
def joinCommaCh : List (List Char) → List Char
  | [] => []
  | [l] => l
  | l :: rest => l ++ ',' :: joinCommaCh rest

/-- Zero-padded fixed-width digit rendering (proof view of the fully
printing branch of `fmtFracGo`). -/
def padDigits : Nat → Nat → List Char
  | 0, _ => []
  | p + 1, m => padDigits p (m / 10) ++ [digitChar (m % 10)]

/-! ## Proof development -/

/-! ### Digit strings -/

theorem goIsDigit_iff {c : Char} : goIsDigit c = true ↔ 48 ≤ c.toNat ∧ c.toNat ≤ 57 := by
  simp [goIsDigit]

theorem digitChar_toNat {d : Nat} (h : d < 10) : (digitChar d).toNat = 48 + d := by
  interval_cases d <;> decide

theorem goIsDigit_digitChar {d : Nat} (h : d < 10) : goIsDigit (digitChar d) = true := by
  interval_cases d <;> decide

theorem charVal_digitChar {d : Nat} (h : d < 10) : charVal (digitChar d) = d := by
  interval_cases d <;> decide

theorem digit_ne_of_toNat {c : Char} (d : Char) (h : goIsDigit c = true)
    (hd : d.toNat < 48 ∨ 57 < d.toNat) : c ≠ d := by
  rcases goIsDigit_iff.mp h with ⟨h1, h2⟩
  intro he
  subst he
  omega

theorem natDigitsF_succ (f n : Nat) : natDigitsF (f + 1) n =
    if n = 0 then [] else natDigitsF f (n / 10) ++ [digitChar (n % 10)] := rfl

theorem natDigitsF_irrel : ∀ {f : Nat} {g n : Nat}, n < f → n < g →
    natDigitsF f n = natDigitsF g n := by
  intro f
  induction f with
  | zero => intro g n h; omega
  | succ f ih =>
    intro g n hf hg
    match g, hg with
    | g + 1, _ =>
      by_cases h0 : n = 0
      · rw [natDigitsF_succ, natDigitsF_succ, if_pos h0, if_pos h0]
      · have hlt : n / 10 < n := Nat.div_lt_self (Nat.pos_of_ne_zero h0) (by omega)
        rw [natDigitsF_succ, natDigitsF_succ, if_neg h0, if_neg h0]
        rw [ih (g := g) (n := n / 10) (by omega) (by omega)]

theorem natDigits_core {n : Nat} (h : n ≠ 0) :
    natDigitsF (n + 1) n = natDigitsF (n / 10 + 1) (n / 10) ++ [digitChar (n % 10)] := by
  have hlt : n / 10 < n := Nat.div_lt_self (Nat.pos_of_ne_zero h) (by omega)
  rw [natDigitsF_succ, if_neg h, natDigitsF_irrel (g := n / 10 + 1) (by omega) (by omega)]

theorem natDigitsF_all_digits : ∀ n, ∀ c ∈ natDigitsF (n + 1) n, goIsDigit c = true := by
  intro n
  induction n using Nat.strong_induction_on with
  | _ n ih =>
    by_cases h0 : n = 0
    · subst h0; simp [natDigitsF]
    · rw [natDigits_core h0]
      intro c hc
      rcases List.mem_append.mp hc with h | h
      · exact ih (n / 10) (Nat.div_lt_self (Nat.pos_of_ne_zero h0) (by omega)) c h
      · rcases List.mem_singleton.mp h with rfl
        exact goIsDigit_digitChar (Nat.mod_lt _ (by omega))

theorem natDigits_all_digits : ∀ c ∈ natDigits n, goIsDigit c = true := by
  by_cases h0 : n = 0
  · subst h0; intro c hc; simp [natDigits] at hc; subst hc; decide
  · simpa [natDigits, h0] using natDigitsF_all_digits n

theorem natDigits_ne_nil {n : Nat} : natDigits n ≠ [] := by
  by_cases h0 : n = 0
  · simp [natDigits, h0]
  · rw [natDigits, if_neg h0, natDigits_core h0]
    simp

theorem digitsValFrom_append {a : Nat} {l1 l2 : List Char} :
    digitsValFrom a (l1 ++ l2) = digitsValFrom (digitsValFrom a l1) l2 := by
  simp [digitsValFrom, List.foldl_append]

theorem digitsValFrom_core : ∀ n, ∀ a,
    digitsValFrom a (natDigitsF (n + 1) n) = a * 10 ^ (natDigitsF (n + 1) n).length + n := by
  intro n
  induction n using Nat.strong_induction_on with
  | _ n ih =>
    intro a
    by_cases h0 : n = 0
    · subst h0; simp [natDigitsF, digitsValFrom]
    · rw [natDigits_core h0]
      have hlt : n / 10 < n := Nat.div_lt_self (Nat.pos_of_ne_zero h0) (by omega)
      rw [digitsValFrom_append, ih (n / 10) hlt]
      have hdm := Nat.div_add_mod n 10
      have hm : n % 10 < 10 := Nat.mod_lt _ (by omega)
      simp only [digitsValFrom, List.foldl_cons, List.foldl_nil, List.length_append,
        List.length_singleton]
      rw [charVal_digitChar hm, pow_succ]
      ring_nf
      omega

theorem digitsVal_natDigits {n : Nat} : digitsVal (natDigits n) = n := by
  by_cases h0 : n = 0
  · subst h0; decide
  · have h := digitsValFrom_core n 0
    simp only [Nat.zero_mul, Nat.zero_add] at h
    simpa [natDigits, h0, digitsVal, digitsValFrom] using h

/-! ### ParseUint / ParseInt round trips -/

theorem readDigitsGo_all {l : List Char} (h : ∀ c ∈ l, goIsDigit c = true) :
    ∀ a, readDigitsGo a l = some (digitsValFrom a l) := by
  induction l with
  | nil => intro a; simp [readDigitsGo, digitsValFrom]
  | cons c cs ih =>
    intro a
    have hc : goIsDigit c = true := h c (List.mem_cons_self _ _)
    rw [readDigitsGo, if_pos hc, ih fun x hx => h x (List.mem_cons_of_mem _ hx)]
    rfl

theorem readDigitsGo_sound : ∀ {l : List Char} {a m : Nat}, readDigitsGo a l = some m →
    (∀ c ∈ l, goIsDigit c = true) ∧ m = digitsValFrom a l := by
  intro l
  induction l with
  | nil =>
    intro a m h
    simp [readDigitsGo] at h
    simp [digitsValFrom, h]
  | cons c cs ih =>
    intro a m h
    rw [readDigitsGo] at h
    by_cases hc : goIsDigit c = true
    · rw [if_pos hc] at h
      rcases ih h with ⟨h1, h2⟩
      refine ⟨?_, ?_⟩
      · intro x hx
        rcases List.mem_cons.mp hx with rfl | hx
        · exact hc
        · exact h1 x hx
      · simpa [digitsValFrom] using h2
    · rw [if_neg hc] at h
      exact absurd h (by simp)

theorem readDigits_complete {l : List Char} (h1 : l ≠ [])
    (h2 : ∀ c ∈ l, goIsDigit c = true) : readDigits? l = some (digitsVal l) := by
  rw [readDigits?, if_neg h1]
  exact readDigitsGo_all h2 0

theorem goParseUint_natStr {n bits : Nat} (h : n ≤ 2 ^ bits - 1) :
    goParseUint (natStr n) bits = some n := by
  have hd : (natStr n).data = natDigits n := rfl
  rw [goParseUint, hd, readDigits_complete natDigits_ne_nil natDigits_all_digits,
    digitsVal_natDigits]
  simp [h]

theorem stripSignInt_cons (c : Char) (cs : List Char) : stripSignInt (c :: cs) =
    if c = '+' then (false, cs) else if c = '-' then (true, cs) else (false, c :: cs) := rfl

theorem goParseInt_mk_neg (l : List Char) (bits : Nat) :
    goParseInt ⟨'-' :: l⟩ bits =
    (match readDigits? l with
     | none => none
     | some un => if un > 2 ^ (bits - 1) then none else some (-(un : Int))) := rfl

theorem goParseInt_mk_nosign {c : Char} (cs : List Char) (bits : Nat)
    (h1 : c ≠ '+') (h2 : c ≠ '-') :
    goParseInt ⟨c :: cs⟩ bits =
    (match readDigits? (c :: cs) with
     | none => none
     | some un => if un ≥ 2 ^ (bits - 1) then none else some (un : Int)) := by
  have hs : stripSignInt (c :: cs) = (false, c :: cs) := by
    rw [stripSignInt_cons, if_neg h1, if_neg h2]
  show (match readDigits? (stripSignInt (c :: cs)).2 with
        | none => none
        | some un =>
          if (stripSignInt (c :: cs)).1 then
            if un > 2 ^ (bits - 1) then none else some (-(un : Int))
          else
            if un ≥ 2 ^ (bits - 1) then none else some (un : Int)) = _
  rw [hs]
  rfl

theorem goParseInt_intStr {n : Int} {bits : Nat}
    (h1 : -(2 ^ (bits - 1) : Int) ≤ n) (h2 : n < 2 ^ (bits - 1)) :
    goParseInt (intStr n) bits = some n := by
  obtain ⟨c, cs, hcc⟩ := List.exists_cons_of_ne_nil (natDigits_ne_nil (n := n.natAbs))
  have hcdig : goIsDigit c = true := by
    apply natDigits_all_digits
    rw [hcc]; exact List.mem_cons_self _ _
  have hchk : (2 ^ (bits - 1) : Int) = ((2 ^ (bits - 1) : Nat) : Int) := by push_cast; ring
  by_cases hn : n < 0
  · have hdata : intStr n = ⟨'-' :: natDigits n.natAbs⟩ := by
      rw [intStr, if_pos hn]; rfl
    rw [hdata, goParseInt_mk_neg,
      readDigits_complete natDigits_ne_nil natDigits_all_digits, digitsVal_natDigits]
    have hle : n.natAbs ≤ 2 ^ (bits - 1) := by
      rw [hchk] at h1; omega
    simp only
    rw [if_neg (by omega)]
    congr 1
    omega
  · have hdata : intStr n = ⟨c :: cs⟩ := by
      rw [intStr, if_neg hn, List.nil_append, hcc]
    have hplus : c ≠ '+' := digit_ne_of_toNat _ hcdig (by left; decide)
    have hminus : c ≠ '-' := digit_ne_of_toNat _ hcdig (by left; decide)
    rw [hdata, goParseInt_mk_nosign cs bits hplus hminus, ← hcc,
      readDigits_complete natDigits_ne_nil natDigits_all_digits, digitsVal_natDigits]
    have hlt : n.natAbs < 2 ^ (bits - 1) := by
      rw [hchk] at h2; omega
    simp only
    rw [if_neg (by omega)]
    congr 1
    omega

/-! ### ParseBool round trip -/

theorem goParseBool_roundtrip (b : Bool) :
    goParseBool (if b then "true" else "false") = some b := by
  cases b <;> decide

/-! ### Split / Join -/

theorem splitCommaCh_ne_nil : ∀ {l : List Char}, splitCommaCh l ≠ [] := by
  intro l
  induction l with
  | nil => simp [splitCommaCh]
  | cons c cs ih =>
    rw [splitCommaCh]
    by_cases hc : c = ','
    · simp [hc]
    · rw [if_neg hc]
      cases h : splitCommaCh cs with
      | nil => exact absurd h ih
      | cons t ts => simp

theorem splitCommaCh_append : ∀ {l : List Char} {cs : List Char},
    (∀ c ∈ l, c ≠ ',') →
    ∃ h0 t, splitCommaCh cs = h0 :: t ∧ splitCommaCh (l ++ cs) = (l ++ h0) :: t := by
  intro l
  induction l with
  | nil =>
    intro cs _
    cases h : splitCommaCh cs with
    | nil => exact absurd h splitCommaCh_ne_nil
    | cons h0 t => exact ⟨h0, t, rfl, by simpa using h⟩
  | cons x l ih =>
    intro cs hx
    obtain ⟨h0, t, hcs, hl⟩ := @ih cs fun c hc => hx c (List.mem_cons_of_mem _ hc)
    refine ⟨h0, t, hcs, ?_⟩
    rw [List.cons_append, splitCommaCh, if_neg (hx x (List.mem_cons_self _ _)), hl]
    rfl

theorem splitCommaCh_join : ∀ {ls : List (List Char)}, ls ≠ [] →
    (∀ l ∈ ls, ∀ c ∈ l, c ≠ ',') → splitCommaCh (joinCommaCh ls) = ls := by
  intro ls
  induction ls with
  | nil => intro h; exact absurd rfl h
  | cons l ls ih =>
    intro _ h
    cases ls with
    | nil =>
      obtain ⟨h0, t, hnil, happ⟩ :=
        @splitCommaCh_append l [] (h l (List.mem_cons_self _ _))
      simp [splitCommaCh] at hnil
      rw [List.append_nil] at happ
      show splitCommaCh l = [l]
      rw [happ, hnil.1, hnil.2]
      simp
    | cons l2 ls2 =>
      have hjoin : joinCommaCh (l :: l2 :: ls2) = l ++ ',' :: joinCommaCh (l2 :: ls2) := rfl
      obtain ⟨h0, t, hcs, happ⟩ :=
        @splitCommaCh_append l (',' :: joinCommaCh (l2 :: ls2))
          (h l (List.mem_cons_self _ _))
      have hsplit : splitCommaCh (',' :: joinCommaCh (l2 :: ls2)) =
          [] :: splitCommaCh (joinCommaCh (l2 :: ls2)) := by
        rw [splitCommaCh, if_pos rfl]
      rw [hsplit] at hcs
      have htail : splitCommaCh (joinCommaCh (l2 :: ls2)) = l2 :: ls2 :=
        ih (by simp) fun x hx => h x (List.mem_cons_of_mem _ hx)
      rw [hjoin, happ]
      rw [htail] at hcs
      obtain ⟨rfl, rfl⟩ : h0 = [] ∧ t = l2 :: ls2 := by
        constructor <;> [exact (List.cons.injEq _ _ _ _ ▸ hcs).1.symm;
          exact (List.cons.injEq _ _ _ _ ▸ hcs).2.symm]
      simp

theorem joinComma_data : ∀ l : List String, (joinComma l).data = joinCommaCh (l.map String.data) := by
  intro l
  induction l with
  | nil => rfl
  | cons s rest ih =>
    cases rest with
    | nil => rfl
    | cons t rest2 =>
      show (s ++ "," ++ joinComma (t :: rest2)).data = _
      have happ : ∀ a b : String, (a ++ b).data = a.data ++ b.data := fun _ _ => rfl
      rw [happ, happ, ih]
      have hrhs : joinCommaCh (List.map String.data (s :: t :: rest2)) =
          s.data ++ ',' :: joinCommaCh (List.map String.data (t :: rest2)) := rfl
      rw [hrhs]
      simp

theorem splitComma_joinComma {l : List String} (h1 : l ≠ [])
    (h2 : ∀ s ∈ l, ',' ∉ s.data) : splitComma (joinComma l) = l := by
  rw [splitComma, joinComma_data,
    splitCommaCh_join (by simpa using h1) (by
      intro x hx c hc
      obtain ⟨s, hs, rfl⟩ := List.mem_map.mp hx
      intro hceq
      exact h2 s hs (hceq ▸ hc))]
  rw [List.map_map,
    show ((fun l : List Char => (⟨l⟩ : String)) ∘ String.data) = id from funext fun _ => rfl]
  exact List.map_id l

/-! ### parseAll -/

theorem parseAll_map {α : Type} {p : String → Option α} {enc : α → String} :
    ∀ {l : List α}, (∀ x ∈ l, p (enc x) = some x) → parseAll p (l.map enc) = some l := by
  intro l
  induction l with
  | nil => intro _; rfl
  | cons x rest ih =>
    intro h
    rw [List.map_cons, parseAll, h x (List.mem_cons_self _ _),
      ih fun y hy => h y (List.mem_cons_of_mem _ hy)]
    rfl

theorem parseAll_none {α : Type} {p : String → Option α} :
    ∀ {toks : List String}, (∃ t ∈ toks, p t = none) → parseAll p toks = none := by
  intro toks
  induction toks with
  | nil => intro h; simp at h
  | cons t rest ih =>
    intro h
    rcases h with ⟨x, hx, hnone⟩
    rcases List.mem_cons.mp hx with rfl | hx2
    · rw [parseAll, hnone]
    · rw [parseAll]
      cases hpt : p t with
      | none => rfl
      | some v => rw [ih ⟨x, hx2, hnone⟩]; rfl

/-! ### Comma-freeness of the scalar renderings -/

theorem natDigits_no_comma {n : Nat} : ∀ c ∈ natDigits n, c ≠ ',' := fun c hc =>
  digit_ne_of_toNat _ (natDigits_all_digits c hc) (by left; decide)

theorem natStr_no_comma {n : Nat} : ',' ∉ (natStr n).data := fun h =>
  natDigits_no_comma ',' h rfl

theorem intStr_no_comma {n : Int} : ',' ∉ (intStr n).data := by
  intro h
  have : (intStr n).data = (if n < 0 then ['-'] else []) ++ natDigits n.natAbs := rfl
  rw [this] at h
  rcases List.mem_append.mp h with h | h
  · by_cases hn : n < 0
    · rw [if_pos hn] at h
      simp at h
    · rw [if_neg hn] at h
      simp at h
  · exact natDigits_no_comma ',' h rfl

theorem boolStr_no_comma {b : Bool} : ',' ∉ ((if b then "true" else "false") : String).data := by
  cases b <;> decide

/-! ### fmtFrac -/

theorem padDigits_length : ∀ p m, (padDigits p m).length = p := by
  intro p
  induction p with
  | zero => intro m; rfl
  | succ p ih => intro m; simp [padDigits, ih]

theorem padDigits_all_digits : ∀ p m, ∀ c ∈ padDigits p m, goIsDigit c = true := by
  intro p
  induction p with
  | zero => intro m c hc; simp [padDigits] at hc
  | succ p ih =>
    intro m c hc
    rw [padDigits] at hc
    rcases List.mem_append.mp hc with h | h
    · exact ih _ c h
    · rcases List.mem_singleton.mp h with rfl
      exact goIsDigit_digitChar (Nat.mod_lt _ (by omega))

theorem digitsValFrom_padDigits : ∀ p (a m : Nat),
    digitsValFrom a (padDigits p m) = a * 10 ^ p + m % 10 ^ p := by
  intro p
  induction p with
  | zero => intro a m; simp [padDigits, digitsValFrom, Nat.mod_one]
  | succ p ih =>
    intro a m
    rw [padDigits, digitsValFrom_append, ih]
    have hm : m % 10 < 10 := Nat.mod_lt _ (by omega)
    simp only [digitsValFrom, List.foldl_cons, List.foldl_nil]
    rw [charVal_digitChar hm]
    have hsplit : m % 10 ^ (p + 1) = m % 10 + 10 * (m / 10 % 10 ^ p) := by
      rw [pow_succ, Nat.mul_comm (10 ^ p) 10, Nat.mod_mul]
    rw [hsplit, pow_succ]
    ring

theorem fmtFracGo_true : ∀ p (v : Nat) (acc : List Char),
    fmtFracGo p v true acc = ('.' :: (padDigits p (v % 10 ^ p) ++ acc), v / 10 ^ p) := by
  intro p
  induction p with
  | zero => intro v acc; simp [fmtFracGo, padDigits]
  | succ p ih =>
    intro v acc
    have hstep : fmtFracGo (p + 1) v true acc =
        fmtFracGo p (v / 10) true (digitChar (v % 10) :: acc) := by
      rw [fmtFracGo]
      simp
    rw [hstep, ih]
    have h1 : (v % 10 ^ (p + 1)) / 10 = v / 10 % 10 ^ p := by
      rw [pow_succ, Nat.mul_comm (10 ^ p) 10]
      exact Nat.mod_mul_right_div_self v 10 (10 ^ p)
    have h2 : (v % 10 ^ (p + 1)) % 10 = v % 10 :=
      Nat.mod_mod_of_dvd v ⟨10 ^ p, by ring⟩
    have h3 : v / 10 ^ (p + 1) = v / 10 / 10 ^ p := by
      rw [pow_succ, Nat.mul_comm (10 ^ p) 10, Nat.div_div_eq_div_mul]
    rw [padDigits, h1, h2, h3]
    simp

theorem fmtFracGo_false : ∀ p (v : Nat),
    (fmtFracGo p v false []).2 = v / 10 ^ p ∧
    ((v % 10 ^ p = 0 ∧ (fmtFracGo p v false []).1 = []) ∨
     (∃ fd, (fmtFracGo p v false []).1 = '.' :: fd ∧ fd ≠ [] ∧
       (∀ c ∈ fd, goIsDigit c = true) ∧ fd.length ≤ p ∧
       digitsVal fd * 10 ^ (p - fd.length) = v % 10 ^ p)) := by
  intro p
  induction p with
  | zero =>
    intro v
    refine ⟨by simp [fmtFracGo], Or.inl ⟨Nat.mod_one v, rfl⟩⟩
  | succ p ih =>
    intro v
    have hsplit : v % 10 ^ (p + 1) = v % 10 + 10 * (v / 10 % 10 ^ p) := by
      rw [pow_succ, Nat.mul_comm (10 ^ p) 10, Nat.mod_mul]
    have h3 : v / 10 ^ (p + 1) = v / 10 / 10 ^ p := by
      rw [pow_succ, Nat.mul_comm (10 ^ p) 10, Nat.div_div_eq_div_mul]
    by_cases hd : v % 10 = 0
    · have hstep : fmtFracGo (p + 1) v false [] = fmtFracGo p (v / 10) false [] := by
        rw [fmtFracGo]
        simp [hd]
      rcases ih (v / 10) with ⟨ih2, ih1⟩
      refine ⟨by rw [hstep, ih2, h3], ?_⟩
      rcases ih1 with ⟨hz, hnil⟩ | ⟨fd, hfd, hne, hdig, hlen, hval⟩
      · exact Or.inl ⟨by omega, by rw [hstep, hnil]⟩
      · refine Or.inr ⟨fd, by rw [hstep, hfd], hne, hdig, by omega, ?_⟩
        have hstep2 : p + 1 - fd.length = (p - fd.length) + 1 := by omega
        rw [hstep2, pow_succ, ← Nat.mul_assoc, hval]
        omega
    · have hstep : fmtFracGo (p + 1) v false [] =
          fmtFracGo p (v / 10) true [digitChar (v % 10)] := by
        rw [fmtFracGo]
        simp [hd]
      rw [hstep, fmtFracGo_true]
      refine ⟨by rw [h3], ?_⟩
      refine Or.inr ⟨padDigits p (v / 10 % 10 ^ p) ++ [digitChar (v % 10)], rfl, by simp, ?_, ?_, ?_⟩
      · intro c hc
        rcases List.mem_append.mp hc with h | h
        · exact padDigits_all_digits _ _ c h
        · rcases List.mem_singleton.mp h with rfl
          exact goIsDigit_digitChar (Nat.mod_lt _ (by omega))
      · simp [padDigits_length]
      · have hlen : (padDigits p (v / 10 % 10 ^ p) ++ [digitChar (v % 10)]).length = p + 1 := by
          simp [padDigits_length]
        rw [hlen, Nat.sub_self, pow_zero, Nat.mul_one]
        have hdv : digitsVal (padDigits p (v / 10 % 10 ^ p) ++ [digitChar (v % 10)]) =
            (v / 10 % 10 ^ p) * 10 + v % 10 := by
          show digitsValFrom 0 (padDigits p (v / 10 % 10 ^ p) ++ [digitChar (v % 10)]) = _
          rw [digitsValFrom_append, digitsValFrom_padDigits]
          simp only [digitsValFrom, List.foldl_cons, List.foldl_nil]
          rw [charVal_digitChar (Nat.mod_lt _ (by omega))]
          have hmm : v / 10 % 10 ^ p % 10 ^ p = v / 10 % 10 ^ p := Nat.mod_mod_of_dvd _ dvd_rfl
          omega
        omega

/-! ### leadingInt / leadingFraction -/

theorem digitsValFrom_cons {a : Nat} {c : Char} {cs : List Char} :
    digitsValFrom a (c :: cs) = digitsValFrom (a * 10 + charVal c) cs := rfl

theorem digitsValFrom_ge : ∀ {l : List Char} {a : Nat}, a ≤ digitsValFrom a l := by
  intro l
  induction l with
  | nil => intro a; exact Nat.le_refl a
  | cons c cs ih =>
    intro a
    rw [digitsValFrom_cons]
    exact le_trans (by omega) (ih (a := a * 10 + charVal c))

theorem digitsValFrom_lt : ∀ {l : List Char}, (∀ c ∈ l, goIsDigit c = true) →
    ∀ {a : Nat}, digitsValFrom a l < (a + 1) * 10 ^ l.length := by
  intro l
  induction l with
  | nil => intro _ a; simp [digitsValFrom]
  | cons c cs ih =>
    intro h a
    rw [digitsValFrom_cons]
    have hc : charVal c < 10 := by
      rcases goIsDigit_iff.mp (h c (List.mem_cons_self _ _)) with ⟨h1, h2⟩
      rw [charVal]; omega
    have := ih (fun x hx => h x (List.mem_cons_of_mem _ hx)) (a := a * 10 + charVal c)
    calc digitsValFrom (a * 10 + charVal c) cs
        < (a * 10 + charVal c + 1) * 10 ^ cs.length := this
      _ ≤ ((a + 1) * 10) * 10 ^ cs.length := by
          apply Nat.mul_le_mul_right
          omega
      _ = (a + 1) * 10 ^ (c :: cs).length := by
          rw [List.length_cons, pow_succ]
          ring

theorem leadingIntGo_nondigit {x : Nat} {c : Char} {cs : List Char}
    (h : goIsDigit c = false) : leadingIntGo x (c :: cs) = some (x, c :: cs) := by
  rw [leadingIntGo, h]
  simp

theorem leadingIntGo_digits : ∀ {l : List Char}, (∀ c ∈ l, goIsDigit c = true) →
    ∀ {a : Nat} {rest : List Char}, digitsValFrom a l ≤ 2 ^ 63 →
    leadingIntGo a (l ++ rest) = leadingIntGo (digitsValFrom a l) rest := by
  intro l
  induction l with
  | nil => intro _ a rest _; rfl
  | cons c cs ih =>
    intro h a rest hb
    have hc : goIsDigit c = true := h c (List.mem_cons_self _ _)
    rw [digitsValFrom_cons] at hb ⊢
    have hy : a * 10 + charVal c ≤ 2 ^ 63 := le_trans digitsValFrom_ge hb
    have hx : a ≤ 2 ^ 63 / 10 := Nat.le_div_iff_mul_le (by omega) |>.mpr (by omega)
    rw [List.cons_append, leadingIntGo, hc]
    simp only [if_true, if_neg (by omega : ¬a > 2 ^ 63 / 10),
      if_neg (by omega : ¬a * 10 + charVal c > 2 ^ 63)]
    exact ih (fun x hx => h x (List.mem_cons_of_mem _ hx)) hb

theorem leadingIntGo_natDigits {m : Nat} {rest : List Char} (h : m ≤ 2 ^ 63) :
    leadingIntGo 0 (natDigits m ++ rest) = leadingIntGo m rest := by
  have hv : digitsValFrom 0 (natDigits m) = m := digitsVal_natDigits
  rw [leadingIntGo_digits natDigits_all_digits (by rw [hv]; exact h), hv]

theorem leadingFracGo_nondigit {x sc : Nat} {b : Bool} {c : Char} {cs : List Char}
    (h : goIsDigit c = false) : leadingFracGo x sc b (c :: cs) = (x, sc, c :: cs) := by
  rw [leadingFracGo, h]
  simp

theorem leadingFracGo_digits : ∀ {l : List Char}, (∀ c ∈ l, goIsDigit c = true) →
    ∀ {x sc : Nat} {rest : List Char}, digitsValFrom x l ≤ 2 ^ 63 - 1 →
    leadingFracGo x sc false (l ++ rest) =
      leadingFracGo (digitsValFrom x l) (sc * 10 ^ l.length) false rest := by
  intro l
  induction l with
  | nil => intro _ x sc rest _; simp [digitsValFrom]
  | cons c cs ih =>
    intro h x sc rest hb
    have hc : goIsDigit c = true := h c (List.mem_cons_self _ _)
    rw [digitsValFrom_cons] at hb ⊢
    have hy : x * 10 + charVal c ≤ 2 ^ 63 - 1 := le_trans digitsValFrom_ge hb
    have hx : x ≤ (2 ^ 63 - 1) / 10 := Nat.le_div_iff_mul_le (by omega) |>.mpr (by omega)
    rw [List.cons_append, leadingFracGo, hc]
    simp only [if_true, if_neg (by omega : ¬x > (2 ^ 63 - 1) / 10), Bool.false_eq_true,
      if_false, if_neg (by omega : ¬x * 10 + charVal c > 2 ^ 63)]
    rw [ih (fun a ha => h a (List.mem_cons_of_mem _ ha)) hb]
    rw [List.length_cons, pow_succ]
    ring_nf

/-! ### Unit scanning -/

theorem takeWhile_all_append {P : Char → Bool} : ∀ {u rest : List Char},
    (∀ c ∈ u, P c = true) →
    (rest = [] ∨ ∃ c cs, rest = c :: cs ∧ P c = false) →
    (u ++ rest).takeWhile P = u := by
  intro u
  induction u with
  | nil =>
    intro rest _ hr
    rcases hr with rfl | ⟨c, cs, rfl, hc⟩
    · rfl
    · simp [List.takeWhile, hc]
  | cons x u2 ih =>
    intro rest h hr
    rw [List.cons_append, List.takeWhile_cons, h x (List.mem_cons_self _ _)]
    rw [ih (fun c hc => h c (List.mem_cons_of_mem _ hc)) hr]
    simp

theorem isUnitChar_false_parts {c : Char} (h : isUnitChar c = true) :
    decide (c = '.') = false ∧ goIsDigit c = false := by
  have h2 : (decide (c = '.') || goIsDigit c) = false := by
    rwa [isUnitChar, Bool.not_eq_true'] at h
  exact Bool.or_eq_false_iff.mp h2

theorem isUnitChar_not_digit {c : Char} (h : isUnitChar c = true) : goIsDigit c = false :=
  (isUnitChar_false_parts h).2

theorem isUnitChar_not_dot {c : Char} (h : isUnitChar c = true) : c ≠ '.' :=
  of_decide_eq_false (isUnitChar_false_parts h).1

theorem isUnitChar_of_digit {c : Char} (h : goIsDigit c = true) : isUnitChar c = false := by
  simp [isUnitChar, h]

/-! ### ParseDuration component lemmas -/

theorem parseDurIter_eq_cons (c : Char) (l : List Char) :
    parseDurIter (c :: l) =
    (if isUnitChar c then none
     else
       match leadingIntGo 0 (c :: l) with
       | none => none
       | some (v, s1) =>
         let pre : Bool := decide (s1.length ≠ (c :: l).length)
         let fr :=
           if s1.head? = some '.' then
             let r := leadingFracGo 0 1 false s1.tail
             (r.1, r.2.1, r.2.2, decide (r.2.2.length ≠ s1.tail.length))
           else (0, 1, s1, false)
         let f := fr.1
         let scale := fr.2.1
         let s2 := fr.2.2.1
         let post := fr.2.2.2
         if pre = false ∧ post = false then none
         else
           let u := s2.takeWhile isUnitChar
           if u = [] then none
           else
             match unitVal? u with
             | none => none
             | some unit =>
               if v > 2 ^ 63 / unit then none
               else
                 let v1 := v * unit
                 let v2 := if f > 0 then v1 + f * unit / scale else v1
                 if f > 0 ∧ v2 > 2 ^ 63 then none
                 else some (v2, s2.drop u.length)) := rfl

theorem takeWhile_unit {uc rest : List Char}
    (hu2 : ∀ c ∈ uc, isUnitChar c = true)
    (hrest : rest = [] ∨ ∃ c cs, rest = c :: cs ∧ goIsDigit c = true) :
    (uc ++ rest).takeWhile isUnitChar = uc := by
  apply takeWhile_all_append hu2
  rcases hrest with rfl | ⟨c, cs, rfl, hc⟩
  · exact Or.inl rfl
  · exact Or.inr ⟨c, cs, rfl, isUnitChar_of_digit hc⟩

theorem parseDurIter_noFrac {m U : Nat} {uc rest : List Char}
    (hu1 : unitVal? uc = some U) (hU : 0 < U)
    (hu2 : ∀ c ∈ uc, isUnitChar c = true) (hu3 : uc ≠ [])
    (hrest : rest = [] ∨ ∃ c cs, rest = c :: cs ∧ goIsDigit c = true)
    (hm : m * U ≤ 2 ^ 63) :
    parseDurIter (natDigits m ++ uc ++ rest) = some (m * U, rest) := by
  obtain ⟨c, ds, hnd⟩ := List.exists_cons_of_ne_nil (natDigits_ne_nil (n := m))
  have hc : goIsDigit c = true := natDigits_all_digits c (hnd ▸ List.mem_cons_self _ _)
  obtain ⟨c2, cs2, huc⟩ := List.exists_cons_of_ne_nil hu3
  have hc2 : isUnitChar c2 = true := hu2 c2 (huc ▸ List.mem_cons_self _ _)
  have hm63 : m ≤ 2 ^ 63 := le_trans (Nat.le_mul_of_pos_right m hU) hm
  have hli : leadingIntGo 0 (natDigits m ++ (uc ++ rest)) = some (m, uc ++ rest) := by
    rw [leadingIntGo_natDigits hm63, huc, List.cons_append,
      leadingIntGo_nondigit (isUnitChar_not_digit hc2), ← List.cons_append, ← huc]
  have hshape : natDigits m ++ uc ++ rest = c :: (ds ++ (uc ++ rest)) := by
    rw [List.append_assoc, hnd, List.cons_append]
  have hli2 : leadingIntGo 0 (c :: (ds ++ (uc ++ rest))) = some (m, uc ++ rest) := by
    rw [← List.cons_append, ← hnd, hli]
  rw [hshape]
  rw [parseDurIter_eq_cons, if_neg (by rw [isUnitChar_of_digit hc]; exact fun h => by cases h),
    hli2]
  dsimp only
  have hdotne : ¬((uc ++ rest).head? = some '.') := by
    rw [huc, List.cons_append, List.head?_cons]
    intro hcon
    exact isUnitChar_not_dot hc2 (Option.some.injEq _ _ ▸ hcon)
  rw [if_neg hdotne]
  dsimp only
  have hpre : decide ((uc ++ rest).length ≠ (c :: (ds ++ (uc ++ rest))).length) = true := by
    simp only [List.length_cons, List.length_append, decide_eq_true_eq]
    omega
  rw [if_neg (fun hcon => by rw [hpre] at hcon; exact absurd hcon.1 (by decide))]
  rw [takeWhile_unit hu2 hrest]
  rw [if_neg hu3, hu1]
  have hdivle : m ≤ 2 ^ 63 / U := (Nat.le_div_iff_mul_le hU).mpr hm
  dsimp only
  rw [if_neg (by omega : ¬m > 2 ^ 63 / U), if_neg (by omega : ¬(0:Nat) > 0)]
  rw [if_neg (fun hcon => absurd hcon.1 (by omega : ¬(0:Nat) > 0))]
  rw [List.drop_left]

theorem parseDurIter_frac {m p r : Nat} {fd uc rest : List Char}
    (hfd : ∀ c ∈ fd, goIsDigit c = true) (hfdne : fd ≠ []) (hlen : fd.length ≤ p) (hp : p ≤ 9)
    (hval : digitsVal fd * 10 ^ (p - fd.length) = r)
    (hu1 : unitVal? uc = some (10 ^ p))
    (hu2 : ∀ c ∈ uc, isUnitChar c = true) (hu3 : uc ≠ [])
    (hrest : rest = [] ∨ ∃ c cs, rest = c :: cs ∧ goIsDigit c = true)
    (hbound : m * 10 ^ p + r ≤ 2 ^ 63) :
    parseDurIter (natDigits m ++ ('.' :: fd) ++ uc ++ rest) = some (m * 10 ^ p + r, rest) := by
  obtain ⟨c, ds, hnd⟩ := List.exists_cons_of_ne_nil (natDigits_ne_nil (n := m))
  have hc : goIsDigit c = true := natDigits_all_digits c (hnd ▸ List.mem_cons_self _ _)
  obtain ⟨c2, cs2, huc⟩ := List.exists_cons_of_ne_nil hu3
  have hc2 : isUnitChar c2 = true := hu2 c2 (huc ▸ List.mem_cons_self _ _)
  have hpowpos : (0:Nat) < 10 ^ p := Nat.pos_pow_of_pos p (by omega)
  have hm63 : m ≤ 2 ^ 63 := by
    have := Nat.le_mul_of_pos_right m hpowpos
    omega
  have hfv : digitsVal fd < 10 ^ fd.length := by
    have := digitsValFrom_lt hfd (a := 0)
    simpa [digitsVal] using this
  have hfd63 : digitsVal fd ≤ 2 ^ 63 - 1 := by
    have h1 : (10:Nat) ^ fd.length ≤ 10 ^ 9 :=
      Nat.pow_le_pow_right (by omega) (by omega)
    have : (10:Nat) ^ 9 ≤ 2 ^ 63 - 1 := by norm_num
    omega
  have hfrac : leadingFracGo 0 1 false (fd ++ (uc ++ rest)) =
      (digitsVal fd, 10 ^ fd.length, uc ++ rest) := by
    rw [leadingFracGo_digits hfd (by simpa [digitsVal] using hfd63), huc, List.cons_append,
      leadingFracGo_nondigit (isUnitChar_not_digit hc2), ← List.cons_append, ← huc]
    show (digitsVal fd, 1 * 10 ^ fd.length, uc ++ rest) = _
    rw [Nat.one_mul]
  have hshape : natDigits m ++ ('.' :: fd) ++ uc ++ rest =
      c :: (ds ++ ('.' :: (fd ++ (uc ++ rest)))) := by
    rw [List.append_assoc, List.append_assoc, hnd, List.cons_append]
    simp
  rw [hshape]
  have hli2 : leadingIntGo 0 (c :: (ds ++ ('.' :: (fd ++ (uc ++ rest))))) =
      some (m, '.' :: (fd ++ (uc ++ rest))) := by
    rw [← List.cons_append, ← hnd, leadingIntGo_natDigits hm63,
      leadingIntGo_nondigit (by decide)]
  rw [parseDurIter_eq_cons, if_neg (by rw [isUnitChar_of_digit hc]; exact fun h => by cases h),
    hli2]
  dsimp only
  rw [List.head?_cons, List.tail_cons, if_pos rfl, hfrac]
  dsimp only
  have hpost : decide ((uc ++ rest).length ≠ (fd ++ (uc ++ rest)).length) = true := by
    have hne : fd.length ≠ 0 := fun hcon => hfdne (List.length_eq_zero.mp hcon)
    simp only [List.length_append, decide_eq_true_eq]
    omega
  rw [if_neg (fun hcon => by rw [hpost] at hcon; exact absurd hcon.2 (by decide))]
  rw [takeWhile_unit hu2 hrest]
  rw [if_neg hu3, hu1]
  have hdivle : m ≤ 2 ^ 63 / 10 ^ p := (Nat.le_div_iff_mul_le hpowpos).mpr (by omega)
  dsimp only
  rw [if_neg (by omega : ¬m > 2 ^ 63 / 10 ^ p)]
  by_cases hf0 : digitsVal fd = 0
  · have hr0 : r = 0 := by rw [← hval, hf0, Nat.zero_mul]
    rw [if_neg (by omega : ¬digitsVal fd > 0)]
    rw [if_neg (fun hcon => absurd hcon.1 (by omega : ¬digitsVal fd > 0))]
    rw [List.drop_left, hr0, Nat.add_zero]
  · have hdivval : digitsVal fd * 10 ^ p / 10 ^ fd.length = r := by
      have hsplitpow : (10:Nat) ^ p = 10 ^ fd.length * 10 ^ (p - fd.length) := by
        rw [← pow_add]
        congr 1
        omega
      rw [hsplitpow, ← Nat.mul_assoc, Nat.mul_comm (digitsVal fd) (10 ^ fd.length),
        Nat.mul_assoc, Nat.mul_div_cancel_left _ (Nat.pos_pow_of_pos _ (by omega)), hval]
    have hfpos : 0 < digitsVal fd := Nat.pos_of_ne_zero hf0
    rw [if_pos (by omega : digitsVal fd > 0), hdivval]
    rw [if_neg (fun hcon => absurd hcon.2 (by omega)), List.drop_left]

/-! ### ParseDuration loop and the Duration.String round trip -/

theorem append2_ne_nil {a b : List Char} (ha : a ≠ []) : a ++ b ≠ [] := by
  intro h
  exact ha (List.append_eq_nil.mp h).1

theorem append3_ne_nil {a b c : List Char} (ha : a ≠ []) : a ++ b ++ c ≠ [] := by
  intro h
  exact ha (List.append_eq_nil.mp (List.append_eq_nil.mp h).1).1

theorem cons_head_shape {x : List Char} {b c : List Char} (hx : x ≠ [])
    (hd : ∀ ch ∈ x, goIsDigit ch = true) :
    ∃ ch cs, x ++ b ++ c = ch :: cs ∧ goIsDigit ch = true := by
  obtain ⟨ch, ds, rfl⟩ := List.exists_cons_of_ne_nil hx
  exact ⟨ch, ds ++ b ++ c, by simp, hd ch (List.mem_cons_self _ _)⟩

theorem fracComp_iter {w pr m : Nat} {uc rest : List Char}
    (hpr : pr ≤ 9) (hU : 0 < (10:Nat) ^ pr)
    (hu1 : unitVal? uc = some (10 ^ pr))
    (hu2 : ∀ c ∈ uc, isUnitChar c = true) (hu3 : uc ≠ [])
    (hrest : rest = [] ∨ ∃ c cs, rest = c :: cs ∧ goIsDigit c = true)
    (hbound : m * 10 ^ pr + w % 10 ^ pr ≤ 2 ^ 63) :
    parseDurIter (natDigits m ++ (fmtFracGo pr w false []).1 ++ uc ++ rest) =
      some (m * 10 ^ pr + w % 10 ^ pr, rest) := by
  rcases (fmtFracGo_false pr w).2 with ⟨hz, hnil⟩ | ⟨fd, hfd1, hne, hdig, hlen, hval⟩
  · rw [hnil, List.append_nil, hz, Nat.add_zero]
    exact parseDurIter_noFrac hu1 hU hu2 hu3 hrest (by omega)
  · rw [hfd1]
    exact parseDurIter_frac hdig hne hlen hpr hval hu1 hu2 hu3 hrest hbound

theorem parseDurLoop_nil (f d : Nat) : parseDurLoop f d [] = some d := by
  cases f <;> rfl

theorem parseDurLoop_step {f d v : Nat} {cs rest : List Char}
    (hne : cs ≠ []) (hit : parseDurIter cs = some (v, rest))
    (hb : ¬(d + v > 2 ^ 63)) (hf : 0 < f) :
    parseDurLoop f d cs = parseDurLoop (f - 1) (d + v) rest := by
  obtain ⟨c, cs2, rfl⟩ := List.exists_cons_of_ne_nil hne
  match f, hf with
  | f + 1, _ =>
    show (match parseDurIter (c :: cs2) with
          | none => none
          | some (v, rest) =>
            let d1 := d + v
            if d1 > 2 ^ 63 then none else parseDurLoop f d1 rest) = _
    rw [hit]
    dsimp only
    rw [if_neg hb]
    rfl

theorem parseDurLoop_durStringAux (u : Nat) (hu : u ≤ 2 ^ 63) :
    parseDurLoop ((durStringAux u).length + 1) 0 (durStringAux u) = some u := by
  by_cases hlt : u < 1000000000
  · by_cases h0 : u = 0
    · subst h0; decide
    · by_cases hns : u < 1000
      · have haux : durStringAux u = natDigits u ++ ['n', 's'] := by
          rw [durStringAux, if_pos hlt, if_neg h0, if_pos hns]
        have hit : parseDurIter (natDigits u ++ ['n', 's']) = some (u * 1, []) := by
          have h := @parseDurIter_noFrac u 1 ['n', 's'] []
            (by decide) (by decide) (by decide) (by decide) (Or.inl rfl) (by omega)
          rwa [List.append_nil] at h
        rw [haux, parseDurLoop_step (append2_ne_nil natDigits_ne_nil) hit (by omega) (by omega),
          parseDurLoop_nil]
        congr 1
        omega
      · by_cases hus : u < 1000000
        · have hsec : (fmtFracGo 3 u false []).2 = u / 10 ^ 3 := (fmtFracGo_false 3 u).1
          have haux : durStringAux u =
              natDigits (u / 10 ^ 3) ++ (fmtFracGo 3 u false []).1 ++ ['µ', 's'] := by
            rw [durStringAux, if_pos hlt, if_neg h0, if_neg hns, if_pos hus]
            dsimp only
            rw [hsec]
          have hcomp := @fracComp_iter u 3 (u / 10 ^ 3)
            ['µ', 's'] [] (by omega) (by norm_num) (by decide) (by decide)
            (by decide) (Or.inl rfl) (by omega)
          rw [List.append_nil, show u / 10 ^ 3 * 10 ^ 3 + u % 10 ^ 3 = u from by omega] at hcomp
          rw [haux, parseDurLoop_step (append3_ne_nil natDigits_ne_nil) hcomp (by omega) (by omega),
            parseDurLoop_nil]
          congr 1
          omega
        · have hsec : (fmtFracGo 6 u false []).2 = u / 10 ^ 6 := (fmtFracGo_false 6 u).1
          have haux : durStringAux u =
              natDigits (u / 10 ^ 6) ++ (fmtFracGo 6 u false []).1 ++ ['m', 's'] := by
            rw [durStringAux, if_pos hlt, if_neg h0, if_neg hns, if_neg hus]
            dsimp only
            rw [hsec]
          have hcomp := @fracComp_iter u 6 (u / 10 ^ 6)
            ['m', 's'] [] (by omega) (by norm_num) (by decide) (by decide)
            (by decide) (Or.inl rfl) (by omega)
          rw [List.append_nil, show u / 10 ^ 6 * 10 ^ 6 + u % 10 ^ 6 = u from by omega] at hcomp
          rw [haux, parseDurLoop_step (append3_ne_nil natDigits_ne_nil) hcomp (by omega) (by omega),
            parseDurLoop_nil]
          congr 1
          omega
  · have hsec : (fmtFracGo 9 u false []).2 = u / 10 ^ 9 := (fmtFracGo_false 9 u).1
    have hscomp : ∀ rest : List Char,
        (rest = [] ∨ ∃ c cs, rest = c :: cs ∧ goIsDigit c = true) →
        parseDurIter (natDigits (u / 10 ^ 9 % 60) ++ (fmtFracGo 9 u false []).1 ++ ['s'] ++ rest) =
          some (u / 10 ^ 9 % 60 * 10 ^ 9 + u % 10 ^ 9, rest) := by
      intro rest hrest
      exact @fracComp_iter u 9 (u / 10 ^ 9 % 60) ['s'] rest
        (by omega) (by norm_num) (by decide) (by decide) (by decide) hrest (by omega)
    by_cases hmin : u / 10 ^ 9 / 60 = 0
    · have haux : durStringAux u =
          natDigits (u / 10 ^ 9 % 60) ++ (fmtFracGo 9 u false []).1 ++ ['s'] := by
        rw [durStringAux, if_neg hlt]
        dsimp only
        rw [hsec, if_pos hmin]
      have hcomp := hscomp [] (Or.inl rfl)
      rw [List.append_nil] at hcomp
      rw [haux, parseDurLoop_step (append3_ne_nil natDigits_ne_nil) hcomp (by omega) (by omega),
        parseDurLoop_nil]
      congr 1
      omega
    · by_cases hhr : u / 10 ^ 9 / 60 / 60 = 0
      · have haux : durStringAux u =
            natDigits (u / 10 ^ 9 / 60 % 60) ++ ['m'] ++
              (natDigits (u / 10 ^ 9 % 60) ++ (fmtFracGo 9 u false []).1 ++ ['s']) := by
          rw [durStringAux, if_neg hlt]
          dsimp only
          rw [hsec, if_neg hmin, if_pos hhr]
        have hcomp1 := @parseDurIter_noFrac (u / 10 ^ 9 / 60 % 60) 60000000000
          ['m']
          (natDigits (u / 10 ^ 9 % 60) ++ (fmtFracGo 9 u false []).1 ++ ['s'])
          (by decide) (by norm_num) (by decide) (by decide)
          (Or.inr (cons_head_shape natDigits_ne_nil natDigits_all_digits)) (by omega)
        have hcomp2 := hscomp [] (Or.inl rfl)
        rw [List.append_nil] at hcomp2
        rw [haux, parseDurLoop_step (append3_ne_nil natDigits_ne_nil) hcomp1 (by omega) (by omega)]
        rw [parseDurLoop_step (append3_ne_nil natDigits_ne_nil) hcomp2 (by omega) ?hf2]
        case hf2 =>
          simp only [List.length_append, List.length_singleton, Nat.add_sub_cancel]
          have hl1 := List.length_pos.mpr (natDigits_ne_nil (n := u / 10 ^ 9 / 60 % 60))
          omega
        rw [parseDurLoop_nil]
        congr 1
        omega
      · have haux : durStringAux u =
            natDigits (u / 10 ^ 9 / 60 / 60) ++ ['h'] ++
              (natDigits (u / 10 ^ 9 / 60 % 60) ++ ['m'] ++
                (natDigits (u / 10 ^ 9 % 60) ++ (fmtFracGo 9 u false []).1 ++ ['s'])) := by
          rw [durStringAux, if_neg hlt]
          dsimp only
          rw [hsec, if_neg hmin, if_neg hhr]
        have hcomp1 := @parseDurIter_noFrac (u / 10 ^ 9 / 60 / 60) 3600000000000
          ['h']
          (natDigits (u / 10 ^ 9 / 60 % 60) ++ ['m'] ++
            (natDigits (u / 10 ^ 9 % 60) ++ (fmtFracGo 9 u false []).1 ++ ['s']))
          (by decide) (by norm_num) (by decide) (by decide)
          (Or.inr (cons_head_shape natDigits_ne_nil natDigits_all_digits)) (by omega)
        have hcomp2 := @parseDurIter_noFrac (u / 10 ^ 9 / 60 % 60) 60000000000
          ['m']
          (natDigits (u / 10 ^ 9 % 60) ++ (fmtFracGo 9 u false []).1 ++ ['s'])
          (by decide) (by norm_num) (by decide) (by decide)
          (Or.inr (cons_head_shape natDigits_ne_nil natDigits_all_digits)) (by omega)
        have hcomp3 := hscomp [] (Or.inl rfl)
        rw [List.append_nil] at hcomp3
        rw [haux, parseDurLoop_step (append3_ne_nil natDigits_ne_nil) hcomp1 (by omega) (by omega)]
        rw [parseDurLoop_step (append3_ne_nil natDigits_ne_nil) hcomp2 (by omega) ?hf2]
        case hf2 =>
          simp only [List.length_append, List.length_singleton, Nat.add_sub_cancel]
          have hl1 := List.length_pos.mpr (natDigits_ne_nil (n := u / 10 ^ 9 / 60 / 60))
          omega
        rw [parseDurLoop_step (append3_ne_nil natDigits_ne_nil) hcomp3 (by omega) ?hf3]
        case hf3 =>
          simp only [List.length_append, List.length_singleton, Nat.add_sub_cancel]
          have := List.length_pos.mpr (natDigits_ne_nil (n := u / 10 ^ 9 / 60 / 60))
          omega
        rw [parseDurLoop_nil]
        congr 1
        omega

theorem stripSignDur_minus (l : List Char) : stripSignDur ('-' :: l) = (true, l) := rfl

theorem stripSignDur_nosign {c : Char} (cs : List Char) (h1 : c ≠ '-') (h2 : c ≠ '+') :
    stripSignDur (c :: cs) = (false, c :: cs) := by
  show (if c = '-' then (true, cs) else if c = '+' then (false, cs) else (false, c :: cs)) = _
  rw [if_neg h1, if_neg h2]

theorem durStringAux_shape (u : Nat) :
    ∃ c cs, durStringAux u = c :: cs ∧ goIsDigit c = true ∧ cs ≠ [] := by
  have hsh : ∀ (x b : List Char), x ≠ [] → (∀ ch ∈ x, goIsDigit ch = true) → b ≠ [] →
      ∃ ch cs, x ++ b = ch :: cs ∧ goIsDigit ch = true ∧ cs ≠ [] := by
    intro x b hx hd hb
    obtain ⟨ch, ds, rfl⟩ := List.exists_cons_of_ne_nil hx
    refine ⟨ch, ds ++ b, by simp, hd ch (List.mem_cons_self _ _), ?_⟩
    intro hcontra
    exact hb (List.append_eq_nil.mp hcontra).2
  by_cases hlt : u < 1000000000
  · by_cases h0 : u = 0
    · exact ⟨'0', ['s'], by rw [durStringAux, if_pos hlt, if_pos h0], by decide, by decide⟩
    · by_cases hns : u < 1000
      · rw [durStringAux, if_pos hlt, if_neg h0, if_pos hns]
        exact hsh _ _ natDigits_ne_nil natDigits_all_digits (by decide)
      · by_cases hus : u < 1000000
        · rw [durStringAux, if_pos hlt, if_neg h0, if_neg hns, if_pos hus]
          dsimp only
          rw [List.append_assoc]
          exact hsh _ _ natDigits_ne_nil natDigits_all_digits
            (fun h => absurd (List.append_eq_nil.mp h).2 (by decide))
        · rw [durStringAux, if_pos hlt, if_neg h0, if_neg hns, if_neg hus]
          dsimp only
          rw [List.append_assoc]
          exact hsh _ _ natDigits_ne_nil natDigits_all_digits
            (fun h => absurd (List.append_eq_nil.mp h).2 (by decide))
  · rw [durStringAux, if_neg hlt]
    dsimp only
    by_cases hmin : (fmtFracGo 9 u false []).2 / 60 = 0
    · rw [if_pos hmin, List.append_assoc]
      exact hsh _ _ natDigits_ne_nil natDigits_all_digits
        (fun h => absurd (List.append_eq_nil.mp h).2 (by decide))
    · by_cases hhr : (fmtFracGo 9 u false []).2 / 60 / 60 = 0
      · rw [if_neg hmin, if_pos hhr, List.append_assoc]
        exact hsh _ _ natDigits_ne_nil natDigits_all_digits
          (fun h => absurd (List.append_eq_nil.mp h).2 (by simp))
      · rw [if_neg hmin, if_neg hhr, List.append_assoc]
        exact hsh _ _ natDigits_ne_nil natDigits_all_digits
          (fun h => absurd (List.append_eq_nil.mp h).2 (by simp))

theorem parseDuration_eq (s : String) : parseDuration s =
    (let p := stripSignDur s.data
     if p.2 = ['0'] then some 0
     else if p.2 = [] then none
     else
       match parseDurLoop (p.2.length + 1) 0 p.2 with
       | none => none
       | some d =>
         if p.1 then some (-(d : Int))
         else if d > 2 ^ 63 - 1 then none
         else some (d : Int)) := rfl

theorem parseDuration_durString {d : Int} (h1 : -(2 ^ 63) ≤ d) (h2 : d < 2 ^ 63) :
    parseDuration (durString d) = some d := by
  obtain ⟨c, cs, hshape, hcdig, hcs⟩ := durStringAux_shape d.natAbs
  have hu : d.natAbs ≤ 2 ^ 63 := by omega
  have hloop := parseDurLoop_durStringAux d.natAbs hu
  rw [hshape] at hloop
  have hnotz : ¬(c :: cs = ['0']) := by
    intro hcon
    injection hcon with ha hb
    exact hcs hb
  by_cases hn : d < 0
  · have hdata : (durString d).data = '-' :: (c :: cs) := by
      show (if d < 0 then ['-'] else []) ++ durStringAux d.natAbs = _
      rw [if_pos hn, hshape]
      rfl
    rw [parseDuration_eq, hdata, stripSignDur_minus]
    dsimp only
    rw [if_neg hnotz, if_neg (by simp), hloop]
    dsimp only
    rw [if_pos rfl]
    congr 1
    omega
  · have hdata : (durString d).data = c :: cs := by
      show (if d < 0 then ['-'] else []) ++ durStringAux d.natAbs = _
      rw [if_neg hn, hshape, List.nil_append]
    have hminus : c ≠ '-' := digit_ne_of_toNat _ hcdig (by left; decide)
    have hplus : c ≠ '+' := digit_ne_of_toNat _ hcdig (by left; decide)
    rw [parseDuration_eq, hdata, stripSignDur_nosign cs hminus hplus]
    dsimp only
    rw [if_neg hnotz, if_neg (by simp), hloop]
    dsimp only
    rw [if_neg (by simp), if_neg (by omega : ¬d.natAbs > 2 ^ 63 - 1)]
    congr 1
    omega

/-! ### durString contains no comma -/

theorem durStringAux_chars {u : Nat} :
    ∀ c ∈ durStringAux u, goIsDigit c = true ∨ c ∈ ['.', 'n', 's', 'µ', 'm', 'h'] := by
  have hfr : ∀ (p w : Nat), ∀ c ∈ (fmtFracGo p w false []).1,
      goIsDigit c = true ∨ c ∈ ['.', 'n', 's', 'µ', 'm', 'h'] := by
    intro p w c hc
    rcases (fmtFracGo_false p w).2 with ⟨_, hnil⟩ | ⟨fd, hfd1, _, hdig, _, _⟩
    · rw [hnil] at hc
      simp at hc
    · rw [hfd1] at hc
      rcases List.mem_cons.mp hc with rfl | hmem
      · right; simp
      · exact Or.inl (hdig c hmem)
  have hnd : ∀ (m : Nat), ∀ c ∈ natDigits m,
      goIsDigit c = true ∨ c ∈ ['.', 'n', 's', 'µ', 'm', 'h'] :=
    fun m c hc => Or.inl (natDigits_all_digits c hc)
  intro c hc
  by_cases hlt : u < 1000000000
  · by_cases h0 : u = 0
    · rw [durStringAux, if_pos hlt, if_pos h0] at hc
      rcases List.mem_cons.mp hc with rfl | hc2
      · left; decide
      · right; simp at hc2; simp [hc2]
    · by_cases hns : u < 1000
      · rw [durStringAux, if_pos hlt, if_neg h0, if_pos hns] at hc
        rcases List.mem_append.mp hc with h | h
        · exact hnd u c h
        · right; rcases List.mem_cons.mp h with rfl | h2
          · simp
          · simp at h2; simp [h2]
      · by_cases hus : u < 1000000
        · rw [durStringAux, if_pos hlt, if_neg h0, if_neg hns, if_pos hus] at hc
          dsimp only at hc
          rcases List.mem_append.mp hc with h | h
          · rcases List.mem_append.mp h with h2 | h2
            · exact hnd _ c h2
            · exact hfr 3 u c h2
          · right
            rcases List.mem_cons.mp h with rfl | h2
            · simp
            · simp at h2; simp [h2]
        · rw [durStringAux, if_pos hlt, if_neg h0, if_neg hns, if_neg hus] at hc
          dsimp only at hc
          rcases List.mem_append.mp hc with h | h
          · rcases List.mem_append.mp h with h2 | h2
            · exact hnd _ c h2
            · exact hfr 6 u c h2
          · right
            rcases List.mem_cons.mp h with rfl | h2
            · simp
            · simp at h2; simp [h2]
  · rw [durStringAux, if_neg hlt] at hc
    dsimp only at hc
    have hsp : ∀ c2 ∈ natDigits ((fmtFracGo 9 u false []).2 % 60) ++
        (fmtFracGo 9 u false []).1 ++ ['s'],
        goIsDigit c2 = true ∨ c2 ∈ ['.', 'n', 's', 'µ', 'm', 'h'] := by
      intro c2 hc2
      rcases List.mem_append.mp hc2 with h | h
      · rcases List.mem_append.mp h with h2 | h2
        · exact hnd _ c2 h2
        · exact hfr 9 u c2 h2
      · right; rcases List.mem_cons.mp h with rfl | h2
        · simp
        · simp at h2
    have hmp : ∀ c2 ∈ natDigits ((fmtFracGo 9 u false []).2 / 60 % 60) ++ ['m'] ++
        (natDigits ((fmtFracGo 9 u false []).2 % 60) ++ (fmtFracGo 9 u false []).1 ++ ['s']),
        goIsDigit c2 = true ∨ c2 ∈ ['.', 'n', 's', 'µ', 'm', 'h'] := by
      intro c2 hc2
      rcases List.mem_append.mp hc2 with h | h
      · rcases List.mem_append.mp h with h2 | h2
        · exact hnd _ c2 h2
        · right; rcases List.mem_cons.mp h2 with rfl | h3
          · simp
          · simp at h3
      · exact hsp c2 h
    by_cases hmin : (fmtFracGo 9 u false []).2 / 60 = 0
    · rw [if_pos hmin] at hc
      exact hsp c hc
    · by_cases hhr : (fmtFracGo 9 u false []).2 / 60 / 60 = 0
      · rw [if_neg hmin, if_pos hhr] at hc
        exact hmp c hc
      · rw [if_neg hmin, if_neg hhr] at hc
        rcases List.mem_append.mp hc with h | h
        · rcases List.mem_append.mp h with h2 | h2
          · exact hnd _ c h2
          · right; rcases List.mem_cons.mp h2 with rfl | h3
            · simp
            · simp at h3
        · exact hmp c h

theorem durString_no_comma {d : Int} : ',' ∉ (durString d).data := by
  intro h
  have hdata : (durString d).data = (if d < 0 then ['-'] else []) ++ durStringAux d.natAbs := rfl
  rw [hdata] at h
  rcases List.mem_append.mp h with h2 | h2
  · by_cases hn : d < 0
    · rw [if_pos hn] at h2; simp at h2
    · rw [if_neg hn] at h2; simp at h2
  · rcases durStringAux_chars ',' h2 with h3 | h3
    · exact absurd h3 (by decide)
    · simp at h3

/-! ### Per-kind decode-of-encode -/

theorem handleSlice_encode {v : Value} (hwf : wfValue v = true) (hseq : seqOk v = true)
    (hsl : isSlice v = true) : handleSlice v (encodeValue v) = .ok v := by
  have henc : encodeValue v = joinComma (elemStrs v) := by rw [encodeValue, if_pos hsl]
  cases v with
  | strs l =>
    rw [henc, handleSlice]
    rw [seqOk] at hseq
    rcases Bool.and_eq_true_iff.mp hseq with ⟨hne, hcf⟩
    rw [elemStrs, splitComma_joinComma (by simpa using hne)
      (fun s hs => by simpa using List.all_eq_true.mp hcf s hs)]
  | bools l =>
    rw [henc, handleSlice, elemStrs,
      splitComma_joinComma (by simpa [seqOk] using hseq)
        (fun s hs => by
          obtain ⟨b, _, rfl⟩ := List.mem_map.mp hs
          exact boolStr_no_comma),
      parseAll_map (fun b _ => goParseBool_roundtrip b)]
  | ints l =>
    have hall : ∀ x ∈ l, -(2147483648:Int) ≤ x ∧ x < 2147483648 := by
      simpa [wfValue] using hwf
    rw [henc, handleSlice, elemStrs,
      splitComma_joinComma (by simpa [seqOk] using hseq)
        (fun s hs => by
          obtain ⟨n, _, rfl⟩ := List.mem_map.mp hs
          exact intStr_no_comma),
      parseAll_map (fun n hn => goParseInt_intStr
        (by have := hall n hn; omega) (by have := hall n hn; omega))]
  | uints l =>
    have hall : ∀ x ∈ l, x < 4294967296 := by
      simpa [wfValue] using hwf
    rw [henc, handleSlice, elemStrs,
      splitComma_joinComma (by simpa [seqOk] using hseq)
        (fun s hs => by
          obtain ⟨n, _, rfl⟩ := List.mem_map.mp hs
          exact natStr_no_comma),
      parseAll_map (fun n hn => goParseUint_natStr (by have := hall n hn; omega))]
  | i64s l =>
    have hall : ∀ x ∈ l, -(9223372036854775808:Int) ≤ x ∧ x < 9223372036854775808 := by
      simpa [wfValue] using hwf
    rw [henc, handleSlice, elemStrs,
      splitComma_joinComma (by simpa [seqOk] using hseq)
        (fun s hs => by
          obtain ⟨n, _, rfl⟩ := List.mem_map.mp hs
          exact intStr_no_comma),
      parseAll_map (fun n hn => goParseInt_intStr
        (by have := hall n hn; omega) (by have := hall n hn; omega))]
  | u64s l =>
    have hall : ∀ x ∈ l, x < 18446744073709551616 := by
      simpa [wfValue] using hwf
    rw [henc, handleSlice, elemStrs,
      splitComma_joinComma (by simpa [seqOk] using hseq)
        (fun s hs => by
          obtain ⟨n, _, rfl⟩ := List.mem_map.mp hs
          exact natStr_no_comma),
      parseAll_map (fun n hn => goParseUint_natStr (by have := hall n hn; omega))]
  | durs l =>
    have hall : ∀ x ∈ l, -(9223372036854775808:Int) ≤ x ∧ x < 9223372036854775808 := by
      simpa [wfValue] using hwf
    rw [henc, handleSlice, elemStrs,
      splitComma_joinComma (by simpa [seqOk] using hseq)
        (fun s hs => by
          obtain ⟨n, _, rfl⟩ := List.mem_map.mp hs
          exact durString_no_comma),
      parseAll_map (fun n hn => parseDuration_durString
        (by have := hall n hn; omega) (by have := hall n hn; omega))]
  | i8s l => exact Bool.noConfusion (show false = true from hwf)
  | str s2 => exact Bool.noConfusion (show false = true from hsl)
  | bool b => exact Bool.noConfusion (show false = true from hsl)
  | i8 n => exact Bool.noConfusion (show false = true from hsl)
  | i16 n => exact Bool.noConfusion (show false = true from hsl)
  | i32 n => exact Bool.noConfusion (show false = true from hsl)
  | int n => exact Bool.noConfusion (show false = true from hsl)
  | i64 n => exact Bool.noConfusion (show false = true from hsl)
  | dur n => exact Bool.noConfusion (show false = true from hsl)
  | u8 n => exact Bool.noConfusion (show false = true from hsl)
  | u16 n => exact Bool.noConfusion (show false = true from hsl)
  | u32 n => exact Bool.noConfusion (show false = true from hsl)
  | uint n => exact Bool.noConfusion (show false = true from hsl)
  | u64 n => exact Bool.noConfusion (show false = true from hsl)
  | structVal r => exact Bool.noConfusion (show false = true from hsl)

theorem parseValue_encode {v : Value} (hwf : wfValue v = true) (hseq : seqOk v = true) :
    parseValue v (encodeValue v) = .ok v := by
  cases v with
  | str s2 => rfl
  | bool b =>
    show (match goParseBool (encodeValue (.bool b)) with
          | some b2 => Except.ok (Value.bool b2)
          | none => Except.error Err.conversion) = _
    have henc : encodeValue (.bool b) = (if b then "true" else "false") := rfl
    rw [henc, goParseBool_roundtrip]
  | i8 n =>
    show (match goParseInt (encodeValue (.i8 n)) 8 with
          | some n2 => Except.ok (Value.i8 n2)
          | none => Except.error Err.conversion) = _
    rw [show encodeValue (.i8 n) = intStr n from rfl,
      goParseInt_intStr (by simp [wfValue] at hwf; omega) (by simp [wfValue] at hwf; omega)]
  | i16 n =>
    show (match goParseInt (encodeValue (.i16 n)) 16 with
          | some n2 => Except.ok (Value.i16 n2)
          | none => Except.error Err.conversion) = _
    rw [show encodeValue (.i16 n) = intStr n from rfl,
      goParseInt_intStr (by simp [wfValue] at hwf; omega) (by simp [wfValue] at hwf; omega)]
  | i32 n =>
    show (match goParseInt (encodeValue (.i32 n)) 32 with
          | some n2 => Except.ok (Value.i32 n2)
          | none => Except.error Err.conversion) = _
    rw [show encodeValue (.i32 n) = intStr n from rfl,
      goParseInt_intStr (by simp [wfValue] at hwf; omega) (by simp [wfValue] at hwf; omega)]
  | int n =>
    show (match goParseInt (encodeValue (.int n)) 32 with
          | some n2 => Except.ok (Value.int n2)
          | none => Except.error Err.conversion) = _
    rw [show encodeValue (.int n) = intStr n from rfl,
      goParseInt_intStr (by simp [wfValue] at hwf; omega) (by simp [wfValue] at hwf; omega)]
  | i64 n =>
    show (match goParseInt (encodeValue (.i64 n)) 64 with
          | some n2 => Except.ok (Value.i64 n2)
          | none => Except.error Err.conversion) = _
    rw [show encodeValue (.i64 n) = intStr n from rfl,
      goParseInt_intStr (by simp [wfValue] at hwf; omega) (by simp [wfValue] at hwf; omega)]
  | dur n =>
    show (match parseDuration (encodeValue (.dur n)) with
          | some n2 => Except.ok (Value.dur n2)
          | none => Except.error Err.conversion) = _
    rw [show encodeValue (.dur n) = durString n from rfl,
      parseDuration_durString (by simp [wfValue] at hwf; omega) (by simp [wfValue] at hwf; omega)]
  | u8 n =>
    show (match goParseUint (encodeValue (.u8 n)) 8 with
          | some n2 => Except.ok (Value.u8 n2)
          | none => Except.error Err.conversion) = _
    rw [show encodeValue (.u8 n) = natStr n from rfl,
      goParseUint_natStr (by simp [wfValue] at hwf; omega)]
  | u16 n =>
    show (match goParseUint (encodeValue (.u16 n)) 16 with
          | some n2 => Except.ok (Value.u16 n2)
          | none => Except.error Err.conversion) = _
    rw [show encodeValue (.u16 n) = natStr n from rfl,
      goParseUint_natStr (by simp [wfValue] at hwf; omega)]
  | u32 n =>
    show (match goParseUint (encodeValue (.u32 n)) 32 with
          | some n2 => Except.ok (Value.u32 n2)
          | none => Except.error Err.conversion) = _
    rw [show encodeValue (.u32 n) = natStr n from rfl,
      goParseUint_natStr (by simp [wfValue] at hwf; omega)]
  | uint n =>
    show (match goParseUint (encodeValue (.uint n)) 32 with
          | some n2 => Except.ok (Value.uint n2)
          | none => Except.error Err.conversion) = _
    rw [show encodeValue (.uint n) = natStr n from rfl,
      goParseUint_natStr (by simp [wfValue] at hwf; omega)]
  | u64 n =>
    show (match goParseUint (encodeValue (.u64 n)) 64 with
          | some n2 => Except.ok (Value.u64 n2)
          | none => Except.error Err.conversion) = _
    rw [show encodeValue (.u64 n) = natStr n from rfl,
      goParseUint_natStr (by simp [wfValue] at hwf; omega)]
  | strs l =>
    show (match handleSlice (.strs l) (encodeValue (.strs l)) with
          | .ok v2 => Except.ok v2
          | .error _ => Except.error Err.conversion) = _
    rw [handleSlice_encode hwf hseq (by rw [isSlice])]
  | bools l =>
    show (match handleSlice (.bools l) (encodeValue (.bools l)) with
          | .ok v2 => Except.ok v2
          | .error _ => Except.error Err.conversion) = _
    rw [handleSlice_encode hwf hseq (by rw [isSlice])]
  | ints l =>
    show (match handleSlice (.ints l) (encodeValue (.ints l)) with
          | .ok v2 => Except.ok v2
          | .error _ => Except.error Err.conversion) = _
    rw [handleSlice_encode hwf hseq (by rw [isSlice])]
  | uints l =>
    show (match handleSlice (.uints l) (encodeValue (.uints l)) with
          | .ok v2 => Except.ok v2
          | .error _ => Except.error Err.conversion) = _
    rw [handleSlice_encode hwf hseq (by rw [isSlice])]
  | i64s l =>
    show (match handleSlice (.i64s l) (encodeValue (.i64s l)) with
          | .ok v2 => Except.ok v2
          | .error _ => Except.error Err.conversion) = _
    rw [handleSlice_encode hwf hseq (by rw [isSlice])]
  | u64s l =>
    show (match handleSlice (.u64s l) (encodeValue (.u64s l)) with
          | .ok v2 => Except.ok v2
          | .error _ => Except.error Err.conversion) = _
    rw [handleSlice_encode hwf hseq (by rw [isSlice])]
  | durs l =>
    show (match handleSlice (.durs l) (encodeValue (.durs l)) with
          | .ok v2 => Except.ok v2
          | .error _ => Except.error Err.conversion) = _
    rw [handleSlice_encode hwf hseq (by rw [isSlice])]
  | structVal r => exact Bool.noConfusion (show false = true from hwf)
  | i8s l => exact Bool.noConfusion (show false = true from hwf)

/-! ### Marshal / Unmarshal orchestration -/

theorem marshal_anns_frame : ∀ (r : List Field) (md : MetaDicts) (pfx k : String),
    k ∉ annKeys pfx r → (marshal md pfx r).anns k = md.anns k := by
  intro r
  induction r with
  | nil => intro md pfx k _; rfl
  | cons f fs ih =>
    intro md pfx k h
    rw [marshal]
    cases hft : fieldTag f with
    | none =>
      have heq : annKeys pfx (f :: fs) = annKeys pfx fs := by
        simp only [annKeys, List.filterMap_cons, hft]
      rw [heq] at h
      rw [ih _ _ _ h, marshalField, hft]
    | some bt =>
      obtain ⟨isAnn, t⟩ := bt
      cases isAnn
      · have heq : annKeys pfx (f :: fs) = annKeys pfx fs := by
          simp only [annKeys, List.filterMap_cons, hft]
        rw [heq] at h
        rw [ih _ _ _ h, marshalField, hft]
        rfl
      · have heq : annKeys pfx (f :: fs) = mkKey pfx t :: annKeys pfx fs := by
          simp only [annKeys, List.filterMap_cons, hft]
        rw [heq] at h
        have h1 : k ≠ mkKey pfx t := fun hc => h (hc ▸ List.mem_cons_self _ _)
        have h2 : k ∉ annKeys pfx fs := fun hc => h (List.mem_cons_of_mem _ hc)
        rw [ih _ _ _ h2, marshalField, hft]
        dsimp only
        show mapSet md.anns (mkKey pfx t) (encodeValue f.value) k = md.anns k
        rw [mapSet, if_neg h1]

theorem marshal_lbls_frame : ∀ (r : List Field) (md : MetaDicts) (pfx k : String),
    k ∉ lblKeys pfx r → (marshal md pfx r).lbls k = md.lbls k := by
  intro r
  induction r with
  | nil => intro md pfx k _; rfl
  | cons f fs ih =>
    intro md pfx k h
    rw [marshal]
    cases hft : fieldTag f with
    | none =>
      have heq : lblKeys pfx (f :: fs) = lblKeys pfx fs := by
        simp only [lblKeys, List.filterMap_cons, hft]
      rw [heq] at h
      rw [ih _ _ _ h, marshalField, hft]
    | some bt =>
      obtain ⟨isAnn, t⟩ := bt
      cases isAnn
      · have heq : lblKeys pfx (f :: fs) = mkKey pfx t :: lblKeys pfx fs := by
          simp only [lblKeys, List.filterMap_cons, hft]
        rw [heq] at h
        have h1 : k ≠ mkKey pfx t := fun hc => h (hc ▸ List.mem_cons_self _ _)
        have h2 : k ∉ lblKeys pfx fs := fun hc => h (List.mem_cons_of_mem _ hc)
        rw [ih _ _ _ h2, marshalField, hft]
        dsimp only
        show mapSet md.lbls (mkKey pfx t) (encodeValue f.value) k = md.lbls k
        rw [mapSet, if_neg h1]
      · have heq : lblKeys pfx (f :: fs) = lblKeys pfx fs := by
          simp only [lblKeys, List.filterMap_cons, hft]
        rw [heq] at h
        rw [ih _ _ _ h, marshalField, hft]
        rfl

theorem marshal_anns_lookup : ∀ (r : List Field) (md : MetaDicts) (pfx : String),
    (annKeys pfx r).Nodup →
    ∀ f ∈ r, ∀ t, fieldTag f = some (true, t) →
    (marshal md pfx r).anns (mkKey pfx t) = some (encodeValue f.value) := by
  intro r
  induction r with
  | nil => intro _ _ _ f hf; simp at hf
  | cons g fs ih =>
    intro md pfx hnd f hf t hft
    rw [marshal]
    rcases List.mem_cons.mp hf with rfl | hmem
    · have heq : annKeys pfx (f :: fs) = mkKey pfx t :: annKeys pfx fs := by
        simp only [annKeys, List.filterMap_cons, hft]
      rw [heq] at hnd
      have hnotin : mkKey pfx t ∉ annKeys pfx fs := (List.nodup_cons.mp hnd).1
      rw [marshal_anns_frame fs _ pfx _ hnotin, marshalField, hft]
      dsimp only
      show mapSet md.anns (mkKey pfx t) (encodeValue f.value) (mkKey pfx t) = _
      rw [mapSet, if_pos rfl]
    · apply ih _ _ _ f hmem t hft
      cases hfg : fieldTag g with
      | none =>
        have heq : annKeys pfx (g :: fs) = annKeys pfx fs := by
          simp only [annKeys, List.filterMap_cons, hfg]
        rw [heq] at hnd
        exact hnd
      | some bt =>
        obtain ⟨isAnn, tg⟩ := bt
        cases isAnn
        · have heq : annKeys pfx (g :: fs) = annKeys pfx fs := by
            simp only [annKeys, List.filterMap_cons, hfg]
          rw [heq] at hnd
          exact hnd
        · have heq : annKeys pfx (g :: fs) = mkKey pfx tg :: annKeys pfx fs := by
            simp only [annKeys, List.filterMap_cons, hfg]
          rw [heq] at hnd
          exact (List.nodup_cons.mp hnd).2

theorem marshal_lbls_lookup : ∀ (r : List Field) (md : MetaDicts) (pfx : String),
    (lblKeys pfx r).Nodup →
    ∀ f ∈ r, ∀ t, fieldTag f = some (false, t) →
    (marshal md pfx r).lbls (mkKey pfx t) = some (encodeValue f.value) := by
  intro r
  induction r with
  | nil => intro _ _ _ f hf; simp at hf
  | cons g fs ih =>
    intro md pfx hnd f hf t hft
    rw [marshal]
    rcases List.mem_cons.mp hf with rfl | hmem
    · have heq : lblKeys pfx (f :: fs) = mkKey pfx t :: lblKeys pfx fs := by
        simp only [lblKeys, List.filterMap_cons, hft]
      rw [heq] at hnd
      have hnotin : mkKey pfx t ∉ lblKeys pfx fs := (List.nodup_cons.mp hnd).1
      rw [marshal_lbls_frame fs _ pfx _ hnotin, marshalField, hft]
      dsimp only
      show mapSet md.lbls (mkKey pfx t) (encodeValue f.value) (mkKey pfx t) = _
      rw [mapSet, if_pos rfl]
    · apply ih _ _ _ f hmem t hft
      cases hfg : fieldTag g with
      | none =>
        have heq : lblKeys pfx (g :: fs) = lblKeys pfx fs := by
          simp only [lblKeys, List.filterMap_cons, hfg]
        rw [heq] at hnd
        exact hnd
      | some bt =>
        obtain ⟨isAnn, tg⟩ := bt
        cases isAnn
        · have heq : lblKeys pfx (g :: fs) = mkKey pfx tg :: lblKeys pfx fs := by
            simp only [lblKeys, List.filterMap_cons, hfg]
          rw [heq] at hnd
          exact (List.nodup_cons.mp hnd).2
        · have heq : lblKeys pfx (g :: fs) = lblKeys pfx fs := by
            simp only [lblKeys, List.filterMap_cons, hfg]
          rw [heq] at hnd
          exact hnd

theorem unmarshal_ok : ∀ (r : List Field) (md : MetaDicts) (pfx : String),
    (∀ f ∈ r, ∃ isAnn t, fieldTag f = some (isAnn, t) ∧
      (if isAnn then md.anns else md.lbls) (mkKey pfx t) = some (encodeValue f.value) ∧
      parseValue f.value (encodeValue f.value) = .ok f.value) →
    unmarshal md pfx r = (r, none) := by
  intro r
  induction r with
  | nil => intro _ _ _; rfl
  | cons f fs ih =>
    intro md pfx h
    obtain ⟨isAnn, t, hft, hlook, hparse⟩ := h f (List.mem_cons_self _ _)
    rw [unmarshal, hft]
    dsimp only
    rw [hlook]
    dsimp only
    rw [hparse]
    dsimp only
    rw [ih md pfx fun g hg => h g (List.mem_cons_of_mem _ hg)]

/-- The amended round trip, with the side conditions the code requires:
every field tagged, values within the parsing bit widths, sequences
non-empty, text-sequence elements free of the separator, and the keys of
each dictionary distinct across fields. -/
theorem marshal_unmarshal_roundTrip (md : MetaDicts) (pfx : String) (r : List Field)
    (htag : ∀ f ∈ r, (fieldTag f).isSome = true)
    (hwf : ∀ f ∈ r, wfValue f.value = true)
    (hseq : ∀ f ∈ r, seqOk f.value = true)
    (hndA : (annKeys pfx r).Nodup) (hndL : (lblKeys pfx r).Nodup) :
    unmarshal (marshal md pfx r) pfx r = (r, none) := by
  apply unmarshal_ok
  intro f hf
  cases hft : fieldTag f with
  | none => exact absurd (hft ▸ htag f hf) (by simp)
  | some bt =>
    obtain ⟨isAnn, t⟩ := bt
    refine ⟨isAnn, t, rfl, ?_, parseValue_encode (hwf f hf) (hseq f hf)⟩
    cases isAnn
    · show (marshal md pfx r).lbls (mkKey pfx t) = _
      exact marshal_lbls_lookup r md pfx hndL f hf t hft
    · show (marshal md pfx r).anns (mkKey pfx t) = _
      exact marshal_anns_lookup r md pfx hndA f hf t hft

/-! ### Decode abort on a missing key -/

theorem unmarshal_value_missing : ∀ (r1 : List Field) (f : Field) (r2 : List Field)
    (md : MetaDicts) (pfx : String) (isAnn : Bool) (t : String),
    fieldTag f = some (isAnn, t) →
    (if isAnn then md.anns else md.lbls) (mkKey pfx t) = none →
    (unmarshal md pfx r1).2 = none →
    unmarshal md pfx (r1 ++ f :: r2) =
      ((unmarshal md pfx r1).1 ++ f :: r2, some .valueMissing) := by
  intro r1
  induction r1 with
  | nil =>
    intro f r2 md pfx isAnn t hft hmiss _
    have h1 : unmarshal md pfx (f :: r2) = (f :: r2, some .valueMissing) := by
      rw [unmarshal, hft]
      dsimp only
      rw [hmiss]
    simpa [show unmarshal md pfx [] = ([], none) from rfl] using h1
  | cons g r1x ih =>
    intro f r2 md pfx isAnn t hft hmiss hok
    cases hfg : fieldTag g with
    | none =>
      have hg : unmarshal md pfx (g :: r1x) =
          (g :: (unmarshal md pfx r1x).1, (unmarshal md pfx r1x).2) := by
        rw [unmarshal, hfg]
      have hok2 : (unmarshal md pfx r1x).2 = none := by
        rw [hg] at hok
        exact hok
      rw [List.cons_append, unmarshal, hfg]
      dsimp only
      rw [ih f r2 md pfx isAnn t hft hmiss hok2, hg]
      simp
    | some bt =>
      obtain ⟨ia, tg⟩ := bt
      rw [unmarshal, hfg] at hok
      dsimp only at hok
      cases hlook : (if ia then md.anns else md.lbls) (mkKey pfx tg) with
      | none =>
        rw [hlook] at hok
        exact absurd hok (by simp)
      | some v =>
        rw [hlook] at hok
        dsimp only at hok
        cases hparse : parseValue g.value v with
        | error e =>
          rw [hparse] at hok
          exact absurd hok (by simp)
        | ok v2 =>
          rw [hparse] at hok
          dsimp only at hok
          rw [List.cons_append, unmarshal, hfg]
          dsimp only
          rw [hlook]
          dsimp only
          rw [hparse]
          dsimp only
          rw [ih f r2 md pfx isAnn t hft hmiss hok]
          have hg : (unmarshal md pfx (g :: r1x)).1 =
              { g with value := v2 } :: (unmarshal md pfx r1x).1 := by
            rw [unmarshal, hfg]
            dsimp only
            rw [hlook]
            dsimp only
            rw [hparse]
          rw [hg]
          simp

/-! ### ParseInt characterized by the reading relation -/

theorem goParseInt_posTail {un : Nat} {n : Int} {bits : Nat}
    (h : (if un ≥ 2 ^ (bits - 1) then none else some (un : Int)) = some n) :
    n = (un : Int) ∧ un < 2 ^ (bits - 1) := by
  by_cases hge : un ≥ 2 ^ (bits - 1)
  · rw [if_pos hge] at h
    exact absurd h (by simp)
  · rw [if_neg hge] at h
    exact ⟨(Option.some.inj h).symm, by omega⟩

theorem goParseInt_negTail {un : Nat} {n : Int} {bits : Nat}
    (h : (if un > 2 ^ (bits - 1) then none else some (-(un : Int))) = some n) :
    n = -(un : Int) ∧ un ≤ 2 ^ (bits - 1) := by
  by_cases hgt : un > 2 ^ (bits - 1)
  · rw [if_pos hgt] at h
    exact absurd h (by simp)
  · rw [if_neg hgt] at h
    exact ⟨(Option.some.inj h).symm, by omega⟩

theorem cutoff_cast (bits : Nat) : ((2 ^ (bits - 1) : Nat) : Int) = (2:Int) ^ (bits - 1) := by
  push_cast
  ring

theorem cutoff_pos_bounds {un bits : Nat} (h : un < 2 ^ (bits - 1)) :
    -((2:Int) ^ (bits - 1)) ≤ (un : Int) ∧ (un : Int) < (2:Int) ^ (bits - 1) := by
  have hc := cutoff_cast bits
  refine ⟨?_, by rw [← hc]; exact_mod_cast h⟩
  have h0 : (0:Int) ≤ (un : Int) := Int.natCast_nonneg un
  have h1 : (0:Int) ≤ (2:Int) ^ (bits - 1) := pow_nonneg (by norm_num) _
  omega

theorem cutoff_neg_bounds {un bits : Nat} (h : un ≤ 2 ^ (bits - 1)) :
    -((2:Int) ^ (bits - 1)) ≤ -(un : Int) ∧ -(un : Int) < (2:Int) ^ (bits - 1) := by
  have hc := cutoff_cast bits
  have h2 : (un : Int) ≤ (2:Int) ^ (bits - 1) := by rw [← hc]; exact_mod_cast h
  have h0 : (0:Int) ≤ (un : Int) := Int.natCast_nonneg un
  have h1 : (0:Int) < (2:Int) ^ (bits - 1) := pow_pos (by norm_num) _
  omega

theorem goParseInt_denotes (s : String) (n : Int) (bits : Nat) :
    goParseInt s bits = some n ↔
      denotesInt s n ∧ -((2:Int) ^ (bits - 1)) ≤ n ∧ n < (2:Int) ^ (bits - 1) := by
  constructor
  · intro h
    rw [goParseInt] at h
    cases hd : s.data with
    | nil => rw [hd] at h; exact absurd h (by simp)
    | cons c cs =>
      rw [hd] at h
      dsimp only at h
      by_cases hplus : c = '+'
      · rw [stripSignInt_cons, if_pos hplus] at h
        dsimp only at h
        cases hr : readDigits? cs with
        | none => rw [hr] at h; exact absurd h (by simp)
        | some un =>
          rw [hr] at h
          dsimp only at h
          rw [if_neg (by decide : ¬(false = true))] at h
          rw [readDigits?] at hr
          by_cases hnil : cs = []
          · rw [if_pos hnil] at hr; exact absurd hr (by simp)
          · rw [if_neg hnil] at hr
            obtain ⟨hdig, hval⟩ := readDigitsGo_sound hr
            obtain ⟨hn, hlt⟩ := goParseInt_posTail h
            subst hn
            refine ⟨⟨['+'], cs, by rw [hd, hplus]; rfl, hnil, hdig, ?_⟩,
              (cutoff_pos_bounds hlt).1, (cutoff_pos_bounds hlt).2⟩
            right; left
            exact ⟨rfl, by rw [hval]; rfl⟩
      · by_cases hminus : c = '-'
        · rw [stripSignInt_cons, if_neg hplus, if_pos hminus] at h
          dsimp only at h
          cases hr : readDigits? cs with
          | none => rw [hr] at h; exact absurd h (by simp)
          | some un =>
            rw [hr] at h
            dsimp only at h
            rw [if_pos rfl] at h
            rw [readDigits?] at hr
            by_cases hnil : cs = []
            · rw [if_pos hnil] at hr; exact absurd hr (by simp)
            · rw [if_neg hnil] at hr
              obtain ⟨hdig, hval⟩ := readDigitsGo_sound hr
              obtain ⟨hn, hle⟩ := goParseInt_negTail h
              subst hn
              refine ⟨⟨['-'], cs, by rw [hd, hminus]; rfl, hnil, hdig, ?_⟩,
                (cutoff_neg_bounds hle).1, (cutoff_neg_bounds hle).2⟩
              right; right
              exact ⟨rfl, by rw [hval]; rfl⟩
        · rw [stripSignInt_cons, if_neg hplus, if_neg hminus] at h
          dsimp only at h
          cases hr : readDigits? (c :: cs) with
          | none => rw [hr] at h; exact absurd h (by simp)
          | some un =>
            rw [hr] at h
            dsimp only at h
            rw [if_neg (by decide : ¬(false = true))] at h
            rw [readDigits?, if_neg (by simp)] at hr
            obtain ⟨hdig, hval⟩ := readDigitsGo_sound hr
            obtain ⟨hn, hlt⟩ := goParseInt_posTail h
            subst hn
            refine ⟨⟨[], c :: cs, by rw [hd]; rfl, by simp, hdig, ?_⟩,
              (cutoff_pos_bounds hlt).1, (cutoff_pos_bounds hlt).2⟩
            left
            exact ⟨rfl, by rw [hval]; rfl⟩
  · intro hyp
    obtain ⟨⟨sgn, mag, hdata, hne, hdig, hsgn⟩, hlo, hhi⟩ := hyp
    obtain ⟨c0, mag2, hmag⟩ := List.exists_cons_of_ne_nil hne
    have hc0 : goIsDigit c0 = true := hdig c0 (hmag ▸ List.mem_cons_self _ _)
    have hc0p : c0 ≠ '+' := digit_ne_of_toNat _ hc0 (by left; decide)
    have hc0m : c0 ≠ '-' := digit_ne_of_toNat _ hc0 (by left; decide)
    have hread : readDigits? mag = some (digitsVal mag) := readDigits_complete hne hdig
    rcases hsgn with ⟨rfl, rfl⟩ | ⟨rfl, rfl⟩ | ⟨rfl, rfl⟩
    · rw [List.nil_append] at hdata
      rw [goParseInt, hdata, hmag]
      dsimp only
      rw [stripSignInt_cons, if_neg hc0p, if_neg hc0m]
      dsimp only
      rw [← hmag, hread]
      dsimp only
      rw [if_neg (by decide : ¬(false = true)),
        if_neg (fun hge => absurd hhi (not_lt.mpr
          (by rw [← cutoff_cast bits]; exact_mod_cast hge)))]
    · rw [goParseInt, hdata, List.singleton_append]
      dsimp only
      rw [stripSignInt_cons, if_pos rfl]
      dsimp only
      rw [hread]
      dsimp only
      rw [if_neg (by decide : ¬(false = true)),
        if_neg (fun hge => absurd hhi (not_lt.mpr
          (by rw [← cutoff_cast bits]; exact_mod_cast hge)))]
    · rw [goParseInt, hdata, List.singleton_append]
      dsimp only
      rw [stripSignInt_cons, if_neg (by decide : ¬(('-' : Char) = '+')), if_pos rfl]
      dsimp only
      rw [hread]
      dsimp only
      rw [if_pos rfl, if_neg (fun hgt => by
        have hx : (2:Int) ^ (bits - 1) < (digitsVal mag : Int) := by
          rw [← cutoff_cast bits]
          exact_mod_cast hgt
        omega)]

/-! ## Claim theorems -/

/-- C1 (amended): for every record whose fields all carry recognized tags and
hold supported values within the parsers' bit widths, with non-empty
sequences whose text elements are free of the separator and with distinct
keys per dictionary, Decode after Encode (same prefix) reproduces the
record exactly and reports no error. -/
theorem c1_encode_decode_roundTrip (md : MetaDicts) (pfx : String) (r : List Field)
    (htag : ∀ f ∈ r, (fieldTag f).isSome = true)
    (hwf : ∀ f ∈ r, wfValue f.value = true)
    (hseq : ∀ f ∈ r, seqOk f.value = true)
    (hndA : (annKeys pfx r).Nodup) (hndL : (lblKeys pfx r).Nodup) :
    unmarshal (marshal md pfx r) pfx r = (r, none) :=
  marshal_unmarshal_roundTrip md pfx r htag hwf hseq hndA hndL

/-- C1 witness: a concrete record covering scalar and sequence kinds
(int, string, uint, duration, bool, int64 at its minimum, string slice,
duration slice) round-trips exactly. -/
theorem c1_roundTrip_witness :
    unmarshal
      (marshal emptyMeta "prefix"
        [⟨some "id", none, .int 1⟩, ⟨some "name", none, .str "John"⟩,
         ⟨none, some "age", .uint 30⟩,
         ⟨none, some "skills", .strs ["cooking", "swimming", "driving"]⟩,
         ⟨some "wait", none, .dur 5400000000000⟩,
         ⟨none, some "laps", .durs [1500, 500000000]⟩,
         ⟨some "on", none, .bool true⟩,
         ⟨some "big", none, .i64 (-9223372036854775808)⟩]) "prefix"
      [⟨some "id", none, .int 1⟩, ⟨some "name", none, .str "John"⟩,
       ⟨none, some "age", .uint 30⟩,
       ⟨none, some "skills", .strs ["cooking", "swimming", "driving"]⟩,
       ⟨some "wait", none, .dur 5400000000000⟩,
       ⟨none, some "laps", .durs [1500, 500000000]⟩,
       ⟨some "on", none, .bool true⟩,
       ⟨some "big", none, .i64 (-9223372036854775808)⟩] =
    ([⟨some "id", none, .int 1⟩, ⟨some "name", none, .str "John"⟩,
      ⟨none, some "age", .uint 30⟩,
      ⟨none, some "skills", .strs ["cooking", "swimming", "driving"]⟩,
      ⟨some "wait", none, .dur 5400000000000⟩,
      ⟨none, some "laps", .durs [1500, 500000000]⟩,
      ⟨some "on", none, .bool true⟩,
      ⟨some "big", none, .i64 (-9223372036854775808)⟩], none) :=
  c1_encode_decode_roundTrip emptyMeta "prefix" _
    (by decide) (by decide) (by decide) (by decide) (by decide)

/-- C1 counterexample: the round trip as claimed fails on (a) a string
slice whose element contains the separator, (b) an empty slice, (c) a
`uint` value above the 32-bit parse bound, and (d) two fields sharing one
annotation name. -/
theorem c1_counterexample :
    (unmarshal (marshal emptyMeta "p" [⟨some "x", none, .strs ["a,b"]⟩]) "p"
        [⟨some "x", none, .strs ["a,b"]⟩]).1 ≠ [⟨some "x", none, .strs ["a,b"]⟩] ∧
    (unmarshal (marshal emptyMeta "p" [⟨some "x", none, .strs []⟩]) "p"
        [⟨some "x", none, .strs []⟩]).1 ≠ [⟨some "x", none, .strs []⟩] ∧
    (unmarshal (marshal emptyMeta "p" [⟨some "x", none, .uint 1099511627776⟩]) "p"
        [⟨some "x", none, .uint 1099511627776⟩]).2 = some .conversion ∧
    (unmarshal (marshal emptyMeta "p" [⟨some "x", none, .int 1⟩, ⟨some "x", none, .int 2⟩]) "p"
        [⟨some "x", none, .int 1⟩, ⟨some "x", none, .int 2⟩]).1 ≠
      [⟨some "x", none, .int 1⟩, ⟨some "x", none, .int 2⟩] := by
  refine ⟨?_, ?_, ?_, ?_⟩ <;> decide

/-- C2 (amended): Decode returns UnsupportedType only for a tagged field of
an unsupported non-slice kind; for a slice with an unsupported element
kind, handleSlice reports UnsupportedType but parseValue rewraps it as
ConversionError; Encode performs no type-support check at all and writes
the default-formatted value without error. -/
theorem c2_unsupported_type (s rend : String) (l : List Int) (md : MetaDicts)
    (pfx tag : String) :
    parseValue (.structVal rend) s = .error .unsupportedType ∧
    handleSlice (.i8s l) s = .error .unsupportedType ∧
    parseValue (.i8s l) s = .error .conversion ∧
    (marshal md pfx [⟨some tag, none, .structVal rend⟩]).anns (mkKey pfx tag) = some rend := by
  refine ⟨rfl, rfl, rfl, ?_⟩
  show mapSet md.anns (mkKey pfx tag) (encodeValue (.structVal rend)) (mkKey pfx tag) = _
  rw [mapSet, if_pos rfl]
  rfl

/-- C2 counterexample: decoding a slice of an unsupported element kind
returns ConversionError, not UnsupportedType, and Encode succeeds (writes
the formatted value) on an unsupported-kind field instead of returning
UnsupportedType. -/
theorem c2_counterexample :
    parseValue (.i8s []) "1" ≠ .error .unsupportedType ∧
    parseValue (.i8s []) "1" = .error .conversion ∧
    (marshal emptyMeta "p" [⟨some "x", none, .structVal "{7}"⟩]).anns "p/x" = some "{7}" := by
  refine ⟨?_, ?_, ?_⟩ <;> decide

/-- C3: when Decode reaches a tagged field whose key is absent from its
selected dictionary, it stops with ValueMissing; the fields before it keep
their freshly decoded values, the failing field and all later fields are
returned untouched. -/
theorem c3_value_missing_abort (r1 : List Field) (f : Field) (r2 : List Field)
    (md : MetaDicts) (pfx : String) (isAnn : Bool) (t : String)
    (hft : fieldTag f = some (isAnn, t))
    (hmiss : (if isAnn then md.anns else md.lbls) (mkKey pfx t) = none)
    (hok : (unmarshal md pfx r1).2 = none) :
    unmarshal md pfx (r1 ++ f :: r2) =
      ((unmarshal md pfx r1).1 ++ f :: r2, some .valueMissing) :=
  unmarshal_value_missing r1 f r2 md pfx isAnn t hft hmiss hok

/-- C3 witness: one field decodes (and keeps its new value), the second
field's key is absent, the third is untouched. -/
theorem c3_value_missing_witness :
    unmarshal ⟨fun _ => none, mapSet (fun _ => none) "p/x" "7"⟩ "p"
      ([⟨some "x", none, .int 0⟩] ++ ⟨some "y", none, .str ""⟩ :: [⟨some "z", none, .bool false⟩]) =
    ((unmarshal ⟨fun _ => none, mapSet (fun _ => none) "p/x" "7"⟩ "p"
        [⟨some "x", none, .int 0⟩]).1 ++
      ⟨some "y", none, .str ""⟩ :: [⟨some "z", none, .bool false⟩], some .valueMissing) :=
  c3_value_missing_abort [⟨some "x", none, .int 0⟩] ⟨some "y", none, .str ""⟩
    [⟨some "z", none, .bool false⟩] ⟨fun _ => none, mapSet (fun _ => none) "p/x" "7"⟩
    "p" true "y" rfl (by decide) (by decide)

/-- C4: a field carrying both an annotation tag and a label tag writes only
the annotations dictionary under prefix/annotation-name, leaves the labels
dictionary unchanged, and decodes without consulting the labels dictionary
at all. -/
theorem c4_tag_precedence (md : MetaDicts) (pfx a l : String) (v : Value)
    (lbls2 : String → Option String) :
    (marshal md pfx [⟨some a, some l, v⟩]).lbls = md.lbls ∧
    (marshal md pfx [⟨some a, some l, v⟩]).anns = mapSet md.anns (mkKey pfx a) (encodeValue v) ∧
    unmarshal ⟨lbls2, md.anns⟩ pfx [⟨some a, some l, v⟩] =
      unmarshal md pfx [⟨some a, some l, v⟩] :=
  ⟨rfl, rfl, rfl⟩

/-- C5: a 64-bit field of type time.Duration is decoded by the duration
grammar and a plain int64 field by base-10 ParseInt; "1h30m" parses only as
a duration, "5400000000000" only as an int64. -/
theorem c5_duration_grammar (s : String) (a b : Int) :
    parseValue (.dur a) s =
      (match parseDuration s with
       | some d => .ok (.dur d)
       | none => .error .conversion) ∧
    parseValue (.i64 b) s =
      (match goParseInt s 64 with
       | some n => .ok (.i64 n)
       | none => .error .conversion) ∧
    parseValue (.dur a) "1h30m" = .ok (.dur 5400000000000) ∧
    parseValue (.dur a) "5400000000000" = .error .conversion ∧
    parseValue (.i64 b) "1h30m" = .error .conversion ∧
    parseValue (.i64 b) "5400000000000" = .ok (.i64 5400000000000) := by
  refine ⟨rfl, rfl, ?_, ?_, ?_, ?_⟩
  · show (match parseDuration "1h30m" with
          | some d => Except.ok (Value.dur d)
          | none => Except.error Err.conversion) = _
    rw [show parseDuration "1h30m" = some 5400000000000 from by decide]
  · show (match parseDuration "5400000000000" with
          | some d => Except.ok (Value.dur d)
          | none => Except.error Err.conversion) = _
    rw [show parseDuration "5400000000000" = none from by decide]
  · show (match goParseInt "1h30m" 64 with
          | some n => Except.ok (Value.i64 n)
          | none => Except.error Err.conversion) = _
    rw [show goParseInt "1h30m" 64 = none from by decide]
  · show (match goParseInt "5400000000000" 64 with
          | some n => Except.ok (Value.i64 n)
          | none => Except.error Err.conversion) = _
    rw [show goParseInt "5400000000000" 64 = some 5400000000000 from by decide]

/-- C6: decoding the generic int kind applies 32-bit bounds: a string
denoting an integer decodes exactly when the integer lies in
[-2147483648, 2147483647]; any other string (out of range or non-numeric)
yields ConversionError; in particular "2147483648" and "abc" fail. -/
theorem c6_int_32bit_range (old : Int) (s : String) (n : Int) :
    (parseValue (.int old) s = .ok (.int n) ↔
       denotesInt s n ∧ -(2147483648 : Int) ≤ n ∧ n < 2147483648) ∧
    (parseValue (.int old) s = .error .conversion ↔
       ¬∃ m, denotesInt s m ∧ -(2147483648 : Int) ≤ m ∧ m < 2147483648) ∧
    parseValue (.int old) "2147483648" = .error .conversion ∧
    parseValue (.int old) "abc" = .error .conversion := by
  have hpv : parseValue (.int old) s =
      (match goParseInt s 32 with
       | some m => .ok (.int m)
       | none => .error .conversion) := rfl
  have hiff : ∀ m : Int, goParseInt s 32 = some m ↔
      denotesInt s m ∧ -(2147483648 : Int) ≤ m ∧ m < 2147483648 := by
    intro m
    have h := goParseInt_denotes s m 32
    norm_num at h
    exact h
  refine ⟨?_, ?_, ?_, ?_⟩
  case refine_3 =>
    show (match goParseInt "2147483648" 32 with
          | some m => Except.ok (Value.int m)
          | none => Except.error Err.conversion) = _
    rw [show goParseInt "2147483648" 32 = none from by decide]
  case refine_4 =>
    show (match goParseInt "abc" 32 with
          | some m => Except.ok (Value.int m)
          | none => Except.error Err.conversion) = _
    rw [show goParseInt "abc" 32 = none from by decide]
  · constructor
    · intro h
      cases hg : goParseInt s 32 with
      | none => rw [hpv, hg] at h; exact absurd h (by simp)
      | some m =>
        rw [hpv, hg] at h
        have hmn : m = n := by
          have := Except.ok.inj h
          exact Value.int.inj this
        subst hmn
        exact (hiff m).mp hg
    · intro h
      rw [hpv, (hiff n).mpr h]
  · constructor
    · intro h hex
      obtain ⟨m, hm⟩ := hex
      rw [hpv, (hiff m).mpr hm] at h
      exact absurd h (by simp)
    · intro h
      cases hg : goParseInt s 32 with
      | none => rw [hpv, hg]
      | some m => exact absurd ⟨m, (hiff m).mp hg⟩ h

/-- C6 witness: the in-range direction applied at "12". -/
theorem c6_int_32bit_range_witness :
    denotesInt "12" 12 ∧ -(2147483648 : Int) ≤ 12 ∧ (12 : Int) < 2147483648 :=
  (c6_int_32bit_range 0 "12" 12).1.mp (by decide)

/-- C7: on a supported sequence kind, if any separator-split token fails
element conversion then the whole parse fails with ConversionError, and a
decode into such a field leaves the record completely unchanged: no prefix
of converted elements is stored. -/
theorem c7_sequence_all_or_nothing (v : Value) (s : String)
    (hsupp : supportedSlice v = true)
    (hfail : ∃ t ∈ splitComma s, elemFailB v t = true) :
    parseValue v s = .error .conversion ∧
    ∀ (md : MetaDicts) (pfx a : String) (rest : List Field),
      md.anns (mkKey pfx a) = some s →
      unmarshal md pfx (⟨some a, none, v⟩ :: rest) =
        (⟨some a, none, v⟩ :: rest, some .conversion) := by
  have hparse : parseValue v s = .error .conversion := by
    obtain ⟨t, htmem, htf⟩ := hfail
    cases v with
    | strs l => rw [elemFailB] at htf; exact absurd htf (by simp)
    | bools l =>
      have htn : goParseBool t = none := Option.isNone_iff_eq_none.mp htf
      have hh : handleSlice (.bools l) s = .error .conversion := by
        rw [show handleSlice (.bools l) s =
            (match parseAll goParseBool (splitComma s) with
             | some l2 => Except.ok (Value.bools l2)
             | none => Except.error Err.conversion) from rfl,
          parseAll_none ⟨t, htmem, htn⟩]
      show (match handleSlice (.bools l) s with
            | .ok v2 => Except.ok v2
            | .error _ => Except.error Err.conversion) = _
      rw [hh]
    | ints l =>
      have htn : (fun s2 => goParseInt s2 32) t = none := Option.isNone_iff_eq_none.mp htf
      have hh : handleSlice (.ints l) s = .error .conversion := by
        rw [show handleSlice (.ints l) s =
            (match parseAll (fun s2 => goParseInt s2 32) (splitComma s) with
             | some l2 => Except.ok (Value.ints l2)
             | none => Except.error Err.conversion) from rfl,
          parseAll_none ⟨t, htmem, htn⟩]
      show (match handleSlice (.ints l) s with
            | .ok v2 => Except.ok v2
            | .error _ => Except.error Err.conversion) = _
      rw [hh]
    | uints l =>
      have htn : (fun s2 => goParseUint s2 32) t = none := Option.isNone_iff_eq_none.mp htf
      have hh : handleSlice (.uints l) s = .error .conversion := by
        rw [show handleSlice (.uints l) s =
            (match parseAll (fun s2 => goParseUint s2 32) (splitComma s) with
             | some l2 => Except.ok (Value.uints l2)
             | none => Except.error Err.conversion) from rfl,
          parseAll_none ⟨t, htmem, htn⟩]
      show (match handleSlice (.uints l) s with
            | .ok v2 => Except.ok v2
            | .error _ => Except.error Err.conversion) = _
      rw [hh]
    | i64s l =>
      have htn : (fun s2 => goParseInt s2 64) t = none := Option.isNone_iff_eq_none.mp htf
      have hh : handleSlice (.i64s l) s = .error .conversion := by
        rw [show handleSlice (.i64s l) s =
            (match parseAll (fun s2 => goParseInt s2 64) (splitComma s) with
             | some l2 => Except.ok (Value.i64s l2)
             | none => Except.error Err.conversion) from rfl,
          parseAll_none ⟨t, htmem, htn⟩]
      show (match handleSlice (.i64s l) s with
            | .ok v2 => Except.ok v2
            | .error _ => Except.error Err.conversion) = _
      rw [hh]
    | u64s l =>
      have htn : (fun s2 => goParseUint s2 64) t = none := Option.isNone_iff_eq_none.mp htf
      have hh : handleSlice (.u64s l) s = .error .conversion := by
        rw [show handleSlice (.u64s l) s =
            (match parseAll (fun s2 => goParseUint s2 64) (splitComma s) with
             | some l2 => Except.ok (Value.u64s l2)
             | none => Except.error Err.conversion) from rfl,
          parseAll_none ⟨t, htmem, htn⟩]
      show (match handleSlice (.u64s l) s with
            | .ok v2 => Except.ok v2
            | .error _ => Except.error Err.conversion) = _
      rw [hh]
    | durs l =>
      have htn : parseDuration t = none := Option.isNone_iff_eq_none.mp htf
      have hh : handleSlice (.durs l) s = .error .conversion := by
        rw [show handleSlice (.durs l) s =
            (match parseAll parseDuration (splitComma s) with
             | some l2 => Except.ok (Value.durs l2)
             | none => Except.error Err.conversion) from rfl,
          parseAll_none ⟨t, htmem, htn⟩]
      show (match handleSlice (.durs l) s with
            | .ok v2 => Except.ok v2
            | .error _ => Except.error Err.conversion) = _
      rw [hh]
    | str s2 => exact Bool.noConfusion (show false = true from hsupp)
    | bool b => exact Bool.noConfusion (show false = true from hsupp)
    | i8 n => exact Bool.noConfusion (show false = true from hsupp)
    | i16 n => exact Bool.noConfusion (show false = true from hsupp)
    | i32 n => exact Bool.noConfusion (show false = true from hsupp)
    | int n => exact Bool.noConfusion (show false = true from hsupp)
    | i64 n => exact Bool.noConfusion (show false = true from hsupp)
    | dur n => exact Bool.noConfusion (show false = true from hsupp)
    | u8 n => exact Bool.noConfusion (show false = true from hsupp)
    | u16 n => exact Bool.noConfusion (show false = true from hsupp)
    | u32 n => exact Bool.noConfusion (show false = true from hsupp)
    | uint n => exact Bool.noConfusion (show false = true from hsupp)
    | u64 n => exact Bool.noConfusion (show false = true from hsupp)
    | structVal r => exact Bool.noConfusion (show false = true from hsupp)
    | i8s l => exact Bool.noConfusion (show false = true from hsupp)
  refine ⟨hparse, ?_⟩
  intro md pfx a rest hlook
  show (match md.anns (mkKey pfx a) with
        | none => (Field.mk (some a) none v :: rest, some Err.valueMissing)
        | some v3 =>
          match parseValue v v3 with
          | .error e => (Field.mk (some a) none v :: rest, some e)
          | .ok v2 =>
            let r := unmarshal md pfx rest
            (Field.mk (some a) none v2 :: r.1, r.2)) = _
  rw [hlook]
  dsimp only
  rw [hparse]

/-- C7 witness: decoding "1,x" into an int-slice field fails as a whole and
leaves the record unchanged. -/
theorem c7_sequence_all_or_nothing_witness :
    unmarshal ⟨fun _ => none, mapSet (fun _ => none) "p/a" "1,x"⟩ "p"
      [⟨some "a", none, .ints []⟩] =
    ([⟨some "a", none, .ints []⟩], some .conversion) :=
  (c7_sequence_all_or_nothing (.ints []) "1,x" (by decide)
      ⟨"x", by decide, by decide⟩).2
    ⟨fun _ => none, mapSet (fun _ => none) "p/a" "1,x"⟩ "p" "a" [] (by decide)

/-- C8 (amended): Encode renders each sequence element with fmt's default
formatting — which for time.Duration elements is the Stringer unit-suffix
grammar, not the plain integer count — and always joins with ",". -/
theorem c8_sequence_encode (l : List Int) (ls : List String) (bs : List Bool) :
    encodeValue (.durs l) = joinComma (l.map durString) ∧
    encodeValue (.strs ls) = joinComma ls ∧
    encodeValue (.ints l) = joinComma (l.map intStr) ∧
    encodeValue (.bools bs) = joinComma (bs.map fun b => if b then "true" else "false") ∧
    encodeValue (.durs [90000000000, 1500]) = "1m30s,1.5µs" := by
  refine ⟨rfl, rfl, rfl, rfl, by decide⟩

/-- C8 counterexample: a duration sequence element is rendered by the
unit-suffix grammar ("1h30m0s"), not by default integer formatting
("5400000000000"). -/
theorem c8_counterexample :
    encodeValue (.durs [5400000000000]) = "1h30m0s" ∧
    ("1h30m0s" : String) ≠ "5400000000000" ∧
    intStr 5400000000000 = "5400000000000" := by
  refine ⟨?_, ?_, ?_⟩ <;> decide

/-- C9: Encode writes only the keys prefix/tagName of the record's tagged
fields: any annotation key outside the record's annotation keys and any
label key outside the record's label keys keeps its previous binding. -/
theorem c9_marshal_frame (md : MetaDicts) (pfx : String) (r : List Field) (k : String) :
    (k ∉ annKeys pfx r → (marshal md pfx r).anns k = md.anns k) ∧
    (k ∉ lblKeys pfx r → (marshal md pfx r).lbls k = md.lbls k) :=
  ⟨fun h => marshal_anns_frame r md pfx k h, fun h => marshal_lbls_frame r md pfx k h⟩

/-- C9 witness: a pre-existing binding under an unrelated key survives an
Encode that writes one annotation and one label. -/
theorem c9_marshal_frame_witness :
    (marshal ⟨mapSet (fun _ => none) "keepL" "l0", mapSet (fun _ => none) "keepA" "a0"⟩ "p"
        [⟨some "x", none, .int 1⟩, ⟨none, some "y", .str "s"⟩]).anns "keepA" =
      (⟨mapSet (fun _ => none) "keepL" "l0", mapSet (fun _ => none) "keepA" "a0"⟩ :
        MetaDicts).anns "keepA" ∧
    (marshal ⟨mapSet (fun _ => none) "keepL" "l0", mapSet (fun _ => none) "keepA" "a0"⟩ "p"
        [⟨some "x", none, .int 1⟩, ⟨none, some "y", .str "s"⟩]).lbls "keepL" =
      (⟨mapSet (fun _ => none) "keepL" "l0", mapSet (fun _ => none) "keepA" "a0"⟩ :
        MetaDicts).lbls "keepL" :=
  ⟨(c9_marshal_frame ⟨mapSet (fun _ => none) "keepL" "l0", mapSet (fun _ => none) "keepA" "a0"⟩
      "p" [⟨some "x", none, .int 1⟩, ⟨none, some "y", .str "s"⟩] "keepA").1 (by decide),
   (c9_marshal_frame ⟨mapSet (fun _ => none) "keepL" "l0", mapSet (fun _ => none) "keepA" "a0"⟩
      "p" [⟨some "x", none, .int 1⟩, ⟨none, some "y", .str "s"⟩] "keepL").2 (by decide)⟩

/-- C10: decoding into a string-slice field always succeeds, storing the
split of the input on ","; the empty string decodes to the one-element
sequence containing the empty string, not to the empty sequence. -/
theorem c10_string_slice_total (old : List String) (s : String) :
    parseValue (.strs old) s = .ok (.strs (splitComma s)) ∧
    parseValue (.strs old) "" = .ok (.strs [""]) ∧
    splitComma "" = [""] ∧ [""] ≠ ([] : List String) := by
  have hempty : splitComma "" = [""] := by decide
  refine ⟨rfl, ?_, hempty, by decide⟩
  rw [show parseValue (.strs old) "" = Except.ok (.strs (splitComma "")) from rfl, hempty]

end Meta2P
